import Mathlib

/-!
Shallow embedding of the persistent key-value store in `src/scripts/api.js`
(the `Database` class and its helper functions `chunkString`, `textToBinary`,
`binaryToText`), together with the JavaScript built-ins they rely on
(`String.prototype.match` with a global `.{1,n}` regex, `String.prototype.split`,
`parseInt(_, 2)`, `Number.prototype.toString(2)`, `String.fromCharCode`,
`JSON.stringify` / `JSON.parse`, the strict-mode `delete` operator).

JavaScript strings are sequences of UTF-16 code units; we model them as
`List Nat` (a genuine JS string has every unit `< 2 ^ 16`).
-/

/-- A JavaScript string: its list of UTF-16 code units. -/
abbrev JSStr := List Nat

/-- Code units of a Lean string literal, for readable constants. -/
def s2u (s : String) : JSStr := s.data.map Char.toNat

/-- Line terminators, the code units the JS regex `.` (no `s` flag) does NOT
match: LF, CR, U+2028 LINE SEPARATOR, U+2029 PARAGRAPH SEPARATOR. -/
def isLineTerm (c : Nat) : Bool := c == 10 || c == 13 || c == 8232 || c == 8233

/-- Whitespace skipped by `parseInt` (the common code points). -/
def isWsJs (c : Nat) : Bool :=
  c == 9 || c == 10 || c == 11 || c == 12 || c == 13 || c == 32 || c == 160 || c == 65279

/-- A binary digit character `0` or `1`. -/
def isBinDigitChar (c : Nat) : Bool := c == 48 || c == 49

/-- A decimal digit character. -/
def isDecDigit (c : Nat) : Bool := 48 ≤ c && c ≤ 57

/-!
`Number.prototype.toString(base)` for a natural number: most-significant digit
first, no leading zeros, digits as code units (`0`–`9`).  `digitsAux b2 n acc`
prepends the digits of `n` in base `b2 + 2` to `acc` (bases of interest: 2 for
`toString(2)` in `textToBinary`, 10 for the default rendering of integers).
-/

/-- Digit expansion of `n` in base `b2 + 2`, most significant first, prepended
to `acc`; produces nothing for `n = 0` (the caller special-cases zero).  The
first argument is fuel making the recursion structural; `n` itself always
suffices. -/
def digitsAux (b2 : Nat) : Nat → Nat → JSStr → JSStr
  | 0, _, acc => acc
  | _, 0, acc => acc
  | fuel + 1, n + 1, acc =>
    digitsAux b2 fuel ((n + 1) / (b2 + 2)) ((48 + (n + 1) % (b2 + 2)) :: acc)

/-- `n.toString(b2 + 2)` as code units (`(0).toString(b)` is `"0"`). -/
def toStringBase (b2 : Nat) (n : Nat) : JSStr :=
  if n = 0 then [48] else digitsAux b2 n n []

/-- `n.toString(2)`. -/
def natBin (n : Nat) : JSStr := toStringBase 0 n

/-- `n.toString()` (decimal), as used for array indices and our integer model
of JSON numbers. -/
def natDec (n : Nat) : JSStr := toStringBase 8 n

/-- Value of a digit string in base `b` (each unit is a digit code). -/
def valDigits (b : Nat) (l : JSStr) : Nat :=
  l.foldl (fun a c => b * a + (c - 48)) 0

theorem digitsAux_append (b2 : Nat) :
    ∀ fuel n (ds ds' : JSStr),
      digitsAux b2 fuel n (ds ++ ds') = digitsAux b2 fuel n ds ++ ds' := by
  intro fuel
  induction fuel with
  | zero =>
    intro n ds ds'
    match n with
    | 0 => rfl
    | m + 1 => rfl
  | succ fuel ih =>
    intro n ds ds'
    match n with
    | 0 => rfl
    | m + 1 =>
      rw [digitsAux, digitsAux]
      rw [show ((48 + (m + 1) % (b2 + 2)) :: (ds ++ ds'))
            = ((48 + (m + 1) % (b2 + 2)) :: ds) ++ ds' from rfl]
      exact ih ((m + 1) / (b2 + 2)) _ _

theorem digitsAux_all (b2 : Nat) :
    ∀ fuel n (ds : JSStr), (∀ c ∈ ds, 48 ≤ c ∧ c ≤ 49 + b2) →
      ∀ c ∈ digitsAux b2 fuel n ds, 48 ≤ c ∧ c ≤ 49 + b2 := by
  intro fuel
  induction fuel with
  | zero =>
    intro n ds hds c hc
    match n with
    | 0 => exact hds c hc
    | m + 1 => exact hds c hc
  | succ fuel ih =>
    intro n ds hds c hc
    match n with
    | 0 => exact hds c hc
    | m + 1 =>
      rw [digitsAux] at hc
      refine ih ((m + 1) / (b2 + 2)) _ ?_ c hc
      intro x hx
      rcases List.mem_cons.mp hx with h | h
      · subst h
        have := Nat.mod_lt (m + 1) (y := b2 + 2) (by omega)
        omega
      · exact hds x h

theorem digitsAux_ne_nil (b2 : Nat) (fuel n : Nat) (hn : 0 < n) (hf : 0 < fuel) :
    digitsAux b2 fuel n [] ≠ [] := by
  match fuel, n, hn, hf with
  | f + 1, m + 1, _, _ =>
    rw [digitsAux]
    rw [show ((48 + (m + 1) % (b2 + 2)) :: ([] : JSStr))
          = [] ++ [48 + (m + 1) % (b2 + 2)] from rfl]
    rw [digitsAux_append]
    simp

theorem valDigits_shift (b : Nat) (l : JSStr) :
    ∀ a : Nat, l.foldl (fun x c => b * x + (c - 48)) a = a * b ^ l.length + valDigits b l := by
  induction l with
  | nil => intro a; simp [valDigits]
  | cons c l ih =>
    intro a
    rw [List.foldl_cons]
    rw [ih (b * a + (c - 48))]
    rw [show valDigits b (c :: l)
          = List.foldl (fun x d => b * x + (d - 48)) (b * 0 + (c - 48)) l from rfl]
    rw [ih (b * 0 + (c - 48))]
    simp [List.length_cons]
    ring

theorem valDigits_digitsAux (b2 : Nat) :
    ∀ n fuel, 0 < n → n ≤ fuel → valDigits (b2 + 2) (digitsAux b2 fuel n []) = n := by
  intro n
  induction n using Nat.strongRecOn with
  | ind n ih =>
    intro fuel hn hfuel
    match n, fuel, hn with
    | m + 1, f + 1, _ =>
      rw [digitsAux]
      rcases Nat.eq_zero_or_pos ((m + 1) / (b2 + 2)) with hq | hq
      · rw [hq]
        have hlt : m + 1 < b2 + 2 := by
          by_contra hcon
          have := Nat.div_pos (Nat.le_of_not_lt hcon) (by omega)
          omega
        have hbase : digitsAux b2 f 0 [48 + (m + 1) % (b2 + 2)]
            = [48 + (m + 1) % (b2 + 2)] := by
          match f with
          | 0 => rfl
          | _ + 1 => rfl
        rw [hbase]
        simp [valDigits]
        omega
      · rw [show ((48 + (m + 1) % (b2 + 2)) :: ([] : JSStr))
              = [] ++ [48 + (m + 1) % (b2 + 2)] from rfl]
        rw [digitsAux_append]
        rw [valDigits, List.foldl_append]
        rw [show List.foldl (fun a c => (b2 + 2) * a + (c - 48)) 0
              (digitsAux b2 f ((m + 1) / (b2 + 2)) [])
              = valDigits (b2 + 2) (digitsAux b2 f ((m + 1) / (b2 + 2)) []) from rfl]
        have hqlt : (m + 1) / (b2 + 2) < m + 1 := Nat.div_lt_self (Nat.succ_pos m) (by omega)
        rw [ih ((m + 1) / (b2 + 2)) hqlt f hq (by omega)]
        simp [List.foldl_cons]
        have h2 := Nat.mod_lt (m + 1) (y := b2 + 2) (by omega)
        have h3 := Nat.div_add_mod (m + 1) (b2 + 2)
        omega

theorem valDigits_toStringBase (b2 : Nat) (n : Nat) :
    valDigits (b2 + 2) (toStringBase b2 n) = n := by
  rw [toStringBase]
  by_cases h : n = 0
  · simp [h, valDigits]
  · rw [if_neg h]
    exact valDigits_digitsAux b2 n n (Nat.pos_of_ne_zero h) (Nat.le_refl n)

theorem toStringBase_all (b2 n : Nat) :
    ∀ c ∈ toStringBase b2 n, 48 ≤ c ∧ c ≤ 49 + b2 := by
  intro c hc
  rw [toStringBase] at hc
  by_cases h : n = 0
  · rw [if_pos h] at hc
    simp at hc
    omega
  · rw [if_neg h] at hc
    exact digitsAux_all b2 n n [] (by simp) c hc

theorem toStringBase_ne_nil (b2 n : Nat) : toStringBase b2 n ≠ [] := by
  rw [toStringBase]
  by_cases h : n = 0
  · simp [h]
  · rw [if_neg h]
    exact digitsAux_ne_nil b2 n n (Nat.pos_of_ne_zero h) (Nat.pos_of_ne_zero h)

/-!
The codec (`textToBinary` / `binaryToText`, lines 52–72 of api.js).

`textToBinary` maps each code unit to its binary representation (no padding)
and joins the tokens with single spaces.  `binaryToText` splits on `" "`,
applies `parseInt(token, 2)` (NaN for an empty or non-digit-headed token after
optional whitespace and sign) and `String.fromCharCode` (which is `ToUint16`,
mapping NaN to 0), and concatenates the resulting characters.
-/

/-- Model of `text.split("").map(c => c.charCodeAt(0).toString(2)).join(" ")`. -/
def textToBinary (text : JSStr) : JSStr :=
  List.intercalate [32] (text.map natBin)

/-- Model of `parseInt(token, 2)`: skip whitespace, optional sign, longest
binary-digit prefix; `none` is NaN. -/
def parseIntBin (s : JSStr) : Option Int :=
  let t := s.dropWhile isWsJs
  let sgn : Int := match t with
    | 45 :: _ => -1
    | _ => 1
  let t2 : JSStr := match t with
    | 45 :: r => r
    | 43 :: r => r
    | _ => t
  let ds := t2.takeWhile isBinDigitChar
  if ds = [] then none else some (sgn * (valDigits 2 ds : Nat))

/-- Model of `String.fromCharCode`: `ToUint16` of the argument, NaN to 0. -/
def fromCharCode (o : Option Int) : Nat :=
  match o with
  | none => 0
  | some v => (v % 65536).toNat

/-- Model of `binary.split(" ").map(t => String.fromCharCode(parseInt(t, 2))).join("")`. -/
def binaryToText (binary : JSStr) : JSStr :=
  (binary.splitOn 32).map (fun tok => fromCharCode (parseIntBin tok))

theorem natBin_eq (n : Nat) : natBin n = toStringBase 0 n := rfl

theorem natBin_all (n : Nat) : ∀ c ∈ natBin n, 48 ≤ c ∧ c ≤ 49 := by
  intro c hc
  rw [natBin_eq] at hc
  have := toStringBase_all 0 n c hc
  omega

theorem parseIntBin_natBin (c : Nat) : parseIntBin (natBin c) = some (c : Int) := by
  have hne : natBin c ≠ [] := toStringBase_ne_nil 0 c
  have hall := natBin_all c
  match hh : natBin c with
  | [] => exact absurd hh hne
  | d :: rest =>
    have hd : 48 ≤ d ∧ d ≤ 49 := by
      refine hall d ?_
      rw [hh]
      exact List.mem_cons_self d rest
    have htake : (d :: rest).takeWhile isBinDigitChar = d :: rest := by
      rw [List.takeWhile_eq_self_iff]
      intro x hx
      have hx2 : x ∈ natBin c := by
        rw [hh]
        exact hx
      have := hall x hx2
      simp [isBinDigitChar]
      omega
    have hval : valDigits 2 (d :: rest) = c := by
      have h2 := valDigits_toStringBase 0 c
      rw [← natBin_eq, hh] at h2
      exact h2
    match d, hd, htake, hval with
    | 48, _, htake, hval =>
      simp [parseIntBin, List.dropWhile_cons, isWsJs, htake, hval]
    | 49, _, htake, hval =>
      simp [parseIntBin, List.dropWhile_cons, isWsJs, htake, hval]

theorem fromCharCode_small (c : Nat) (h : c < 65536) : fromCharCode (some (c : Int)) = c := by
  rw [fromCharCode]
  rw [Int.emod_eq_of_lt (by omega) (by omega)]
  simp

/-- Splitting the space-joined tokens recovers them: the tokens are the binary
renderings, which are nonempty and contain no space. -/
theorem splitOn_textToBinary (s : JSStr) (hs : s ≠ []) :
    (textToBinary s).splitOn 32 = s.map natBin := by
  rw [textToBinary]
  refine List.splitOn_intercalate (s.map natBin) 32 ?_ ?_
  · intro l hl
    rcases List.mem_map.mp hl with ⟨c, _, rfl⟩
    intro hmem
    have := natBin_all c 32 hmem
    omega
  · simp [hs]

/-- Claim C3's codec inverse, on nonempty JS strings. -/
theorem binaryToText_textToBinary (s : JSStr) (hne : s ≠ [])
    (hwf : ∀ c ∈ s, c < 65536) : binaryToText (textToBinary s) = s := by
  rw [binaryToText, splitOn_textToBinary s hne]
  rw [List.map_map]
  rw [show s = s.map id from (List.map_id s).symm]
  rw [List.map_map]
  apply List.map_congr_left
  intro c hc
  simp only [Function.comp_apply, id_eq]
  rw [parseIntBin_natBin c]
  exact fromCharCode_small c (hwf c hc)

/-- Claim C3: textual statement is FALSE at the empty string: `"".split(" ")`
is `[""]`, `parseInt("", 2)` is NaN, and `String.fromCharCode(NaN)` is the NUL
character, so decoding the encoded empty string yields `"\u0000"`, not `""`. -/
theorem C3_counterexample :
    binaryToText (textToBinary []) = [0] ∧ decide (([0] : JSStr) = ([] : JSStr)) = false := by
  constructor
  · rfl
  · rfl

/-- Claim C3 (amended): for every NONEMPTY JS string `s` (all code units below
`2 ^ 16`), `binaryToText (textToBinary s) = s`; the empty string instead
decodes to the one-character NUL string. -/
theorem C3_codec_inverse (s : JSStr) (hne : s ≠ []) (hwf : ∀ c ∈ s, c < 65536) :
    binaryToText (textToBinary s) = s :=
  binaryToText_textToBinary s hne hwf

theorem C3_codec_inverse_witness :
    (s2u "hi" ≠ []) ∧ (∀ c ∈ s2u "hi", c < 65536) ∧
      binaryToText (textToBinary (s2u "hi")) = s2u "hi" := by
  refine ⟨by decide, by decide, C3_codec_inverse (s2u "hi") (by decide) (by decide)⟩

/-!
`chunkString` (lines 25–27 of api.js):
`str.match(new RegExp(".{1," + length + "}", "g"))`.

The global match scans left to right: at each position it either takes the
longest run of up to `length` characters that `.` matches (everything except
the four line terminators), or, when the current character is a line
terminator, skips it and moves on.  `String.prototype.match` with a global
regex returns `null` (modelled as `none`) when there is no match at all — in
particular on the empty string.  A `length` of `0` would make the pattern
`.{1,0}` a `SyntaxError`, modelled as `none` as well.
-/

/-- One greedy match of `.{1,L}` starting at the head of `s` (may be empty if
the head is a line terminator). -/
def takeRun : Nat → JSStr → JSStr
  | _, [] => []
  | 0, _ :: _ => []
  | l + 1, c :: rest => if isLineTerm c then [] else c :: takeRun l rest

/-- What remains of `s` after `takeRun`. -/
def dropRun : Nat → JSStr → JSStr
  | _, [] => []
  | 0, s@(_ :: _) => s
  | l + 1, c :: rest => if isLineTerm c then c :: rest else dropRun l rest

/-- All matches of the global regex, scanning with `fuel` steps (each step
consumes at least one character when `1 ≤ L`, so `s.length` fuel suffices). -/
def chunkMatchesFuel (L : Nat) : Nat → JSStr → List JSStr
  | 0, _ => []
  | _ + 1, [] => []
  | fuel + 1, c :: rest =>
    if isLineTerm c then chunkMatchesFuel L fuel rest
    else takeRun L (c :: rest) :: chunkMatchesFuel L fuel (dropRun L (c :: rest))

/-- Model of `chunkString str length`; `none` is JavaScript `null` (no match)
or the invalid `{1,0}` quantifier. -/
def chunkString (str : JSStr) (length : Nat) : Option (List JSStr) :=
  if length = 0 then none
  else
    let ms := chunkMatchesFuel length str.length str
    if ms = [] then none else some ms

theorem takeRun_append_dropRun : ∀ (l : Nat) (s : JSStr), takeRun l s ++ dropRun l s = s := by
  intro l
  induction l with
  | zero =>
    intro s
    match s with
    | [] => rfl
    | c :: rest => rfl
  | succ l ih =>
    intro s
    match s with
    | [] => rfl
    | c :: rest =>
      rw [takeRun, dropRun]
      by_cases h : isLineTerm c
      · simp [h]
      · simp only [if_neg h]
        rw [List.cons_append, ih rest]

theorem dropRun_length_le : ∀ (l : Nat) (s : JSStr), (dropRun l s).length ≤ s.length := by
  intro l
  induction l with
  | zero =>
    intro s
    match s with
    | [] => simp [dropRun]
    | c :: rest => simp [dropRun]
  | succ l ih =>
    intro s
    match s with
    | [] => simp [dropRun]
    | c :: rest =>
      rw [dropRun]
      by_cases h : isLineTerm c
      · simp [h]
      · simp only [if_neg h]
        calc (dropRun l rest).length ≤ rest.length := ih rest
        _ ≤ (c :: rest).length := by simp

/-- On a terminator-free string, `takeRun`/`dropRun` are plain `take`/`drop`. -/
theorem takeRun_noTerm : ∀ (l : Nat) (s : JSStr), (∀ c ∈ s, isLineTerm c = false) →
    takeRun l s = s.take l := by
  intro l
  induction l with
  | zero =>
    intro s _
    match s with
    | [] => rfl
    | c :: rest => rfl
  | succ l ih =>
    intro s hs
    match s with
    | [] => rfl
    | c :: rest =>
      rw [takeRun]
      rw [if_neg (by rw [hs c (List.mem_cons_self c rest)]; simp)]
      rw [List.take_succ_cons, ih rest (fun x hx => hs x (List.mem_cons_of_mem c hx))]

theorem dropRun_noTerm : ∀ (l : Nat) (s : JSStr), (∀ c ∈ s, isLineTerm c = false) →
    dropRun l s = s.drop l := by
  intro l
  induction l with
  | zero =>
    intro s _
    match s with
    | [] => rfl
    | c :: rest => rfl
  | succ l ih =>
    intro s hs
    match s with
    | [] => rfl
    | c :: rest =>
      rw [dropRun]
      rw [if_neg (by rw [hs c (List.mem_cons_self c rest)]; simp)]
      rw [List.drop_succ_cons, ih rest (fun x hx => hs x (List.mem_cons_of_mem c hx))]

/-- Reference chunking of a terminator-free string into pieces of length
`l + 1`: what the regex produces in that case. -/
def chunksOf (l : Nat) : JSStr → List JSStr
  | [] => []
  | c :: rest => (c :: rest.take l) :: chunksOf l (rest.drop l)
termination_by s => s.length
decreasing_by simp only [List.length_cons, List.length_drop]; omega

theorem chunkMatchesFuel_noTerm (l : Nat) :
    ∀ (fuel : Nat) (s : JSStr), (∀ c ∈ s, isLineTerm c = false) → s.length ≤ fuel →
      chunkMatchesFuel (l + 1) fuel s = chunksOf l s := by
  intro fuel
  induction fuel with
  | zero =>
    intro s hs hlen
    match s with
    | [] => simp [chunkMatchesFuel, chunksOf]
  | succ fuel ih =>
    intro s hs hlen
    match s with
    | [] => simp [chunkMatchesFuel, chunksOf]
    | c :: rest =>
      rw [chunkMatchesFuel]
      rw [if_neg (by rw [hs c (List.mem_cons_self c rest)]; simp)]
      rw [takeRun_noTerm _ _ hs, dropRun_noTerm _ _ hs]
      rw [chunksOf]
      rw [List.take_succ_cons, List.drop_succ_cons]
      congr 1
      refine ih (rest.drop l) (fun x hx => hs x (List.mem_cons_of_mem c (List.mem_of_mem_drop hx))) ?_
      simp only [List.length_drop]
      simp only [List.length_cons] at hlen
      omega

theorem chunksOf_join (l : Nat) : ∀ (s : JSStr), (chunksOf l s).flatten = s := by
  intro s
  induction s using chunksOf.induct l with
  | case1 => simp [chunksOf]
  | case2 c rest ih =>
    rw [chunksOf, List.flatten_cons, ih]
    rw [List.cons_append, List.take_append_drop]

theorem chunksOf_ne_nil (l : Nat) (s : JSStr) (h : s ≠ []) : chunksOf l s ≠ [] := by
  match s, h with
  | c :: rest, _ =>
    rw [chunksOf]
    simp

theorem chunksOf_piece_len (l : Nat) : ∀ (s : JSStr),
    ∀ p ∈ chunksOf l s, 1 ≤ p.length ∧ p.length ≤ l + 1 := by
  intro s
  induction s using chunksOf.induct l with
  | case1 => intro p hp; simp [chunksOf] at hp
  | case2 c rest ih =>
    intro p hp
    rw [chunksOf] at hp
    rcases List.mem_cons.mp hp with h | h
    · subst h
      simp only [List.length_cons]
      have := List.length_take_le l rest
      omega
    · exact ih p h

theorem chunksOf_dropLast_len (l : Nat) : ∀ (s : JSStr),
    ∀ p ∈ (chunksOf l s).dropLast, p.length = l + 1 := by
  intro s
  induction s using chunksOf.induct l with
  | case1 => intro p hp; simp [chunksOf] at hp
  | case2 c rest ih =>
    intro p hp
    rw [chunksOf] at hp
    match hrec : chunksOf l (rest.drop l) with
    | [] =>
      rw [hrec] at hp
      simp at hp
    | q :: qs =>
      rw [hrec, List.dropLast_cons_of_ne_nil (by simp)] at hp
      rcases List.mem_cons.mp hp with h | h
      · subst h
        have hne : rest.drop l ≠ [] := by
          intro hcon
          rw [hcon] at hrec
          exact absurd hrec.symm (by simp [chunksOf])
        have : l < rest.length := by
          by_contra hcon
          exact hne (List.drop_eq_nil_of_le (Nat.le_of_not_lt hcon))
        simp only [List.length_cons, List.length_take]
        omega
      · rw [← hrec] at h
        exact ih p h

/-- Claim C2: as stated the split property is FALSE. JS regex `.` does not
match line terminators, so `chunkString("a\nb", 5)` yields `["a", "b"]`: the
newline is silently dropped (the concatenation is not the input, and the
non-final piece has length 1, not 5); moreover splitting the empty string
yields `null` (here `none`), not an empty sequence. -/
theorem C2_counterexample :
    chunkString (s2u "a\nb") 5 = some [s2u "a", s2u "b"] ∧
      decide ((List.flatten [s2u "a", s2u "b"]) = s2u "a\nb") = false ∧
      chunkString ([] : JSStr) 5 = none := by
  refine ⟨by decide, by decide, by decide⟩

/-- Claim C2 (amended): restricted to strings with no line-terminator code
units (LF, CR, U+2028, U+2029) — which every serialized JSON document without
raw U+2028/U+2029 in its strings satisfies — the greedy split property holds
for nonempty input, and splitting the empty string yields `null` (`none`),
which `save` cannot iterate. -/
theorem C2_split_join (s : JSStr) (L : Nat) (hL : 1 ≤ L)
    (hterm : ∀ c ∈ s, isLineTerm c = false) (hne : s ≠ []) :
    ∃ ps, chunkString s L = some ps ∧ ps.flatten = s ∧
      (∀ p ∈ ps.dropLast, p.length = L) ∧
      (∀ p ∈ ps, 1 ≤ p.length ∧ p.length ≤ L) ∧
      chunkString ([] : JSStr) L = none := by
  match L, hL with
  | l + 1, _ =>
    refine ⟨chunksOf l s, ?_, chunksOf_join l s, ?_, ?_, ?_⟩
    · rw [chunkString]
      rw [if_neg (by omega)]
      simp only [chunkMatchesFuel_noTerm l s.length s hterm (Nat.le_refl _)]
      rw [if_neg (chunksOf_ne_nil l s hne)]
    · exact chunksOf_dropLast_len l s
    · exact chunksOf_piece_len l s
    · rw [chunkString]
      rw [if_neg (by omega)]
      simp [chunkMatchesFuel]

theorem C2_split_join_witness :
    (1 ≤ 2) ∧ (∀ c ∈ s2u "abcde", isLineTerm c = false) ∧ (s2u "abcde" ≠ []) ∧
      ∃ ps, chunkString (s2u "abcde") 2 = some ps ∧ ps.flatten = s2u "abcde" ∧
        (∀ p ∈ ps.dropLast, p.length = 2) ∧
        (∀ p ∈ ps, 1 ≤ p.length ∧ p.length ≤ 2) ∧
        chunkString ([] : JSStr) 2 = none :=
  ⟨by decide, by decide, by decide,
    C2_split_join (s2u "abcde") 2 (by decide) (by decide) (by decide)⟩

/-!
Chunk-boundary facts (claim C8) and the behaviour of the matcher on strings
that do contain line terminators (needed to refute C8 as stated).
-/

theorem chunksOf_len_exact (l : Nat) (s : JSStr) (h : s.length = l + 1) :
    chunksOf l s = [s] := by
  match s with
  | c :: rest =>
    rw [chunksOf]
    simp only [List.length_cons] at h
    rw [List.take_of_length_le (by omega)]
    rw [List.drop_eq_nil_of_le (by omega)]
    rw [chunksOf]

theorem chunksOf_len_one_more (l : Nat) (s : JSStr) (h : s.length = l + 2) :
    chunksOf l s = [s.take (l + 1), s.drop (l + 1)] ∧ (s.drop (l + 1)).length = 1 := by
  match s with
  | c :: rest =>
    simp only [List.length_cons] at h
    constructor
    · rw [chunksOf]
      rw [List.take_succ_cons, List.drop_succ_cons]
      congr 1
      have hd : (rest.drop l).length = 1 := by
        rw [List.length_drop]
        omega
      rcases List.length_eq_one.mp hd with ⟨x, hx⟩
      rw [hx, chunksOf]
      simp [chunksOf]
    · rw [List.drop_succ_cons, List.length_drop]
      omega

/-- A maximal terminator-free prefix is one whole match. -/
theorem takeRun_stop (t : Nat) (r : JSStr) (ht : isLineTerm t = true) :
    ∀ (p : JSStr) (L : Nat), (∀ c ∈ p, isLineTerm c = false) → p.length ≤ L →
      takeRun L (p ++ t :: r) = p := by
  intro p
  induction p with
  | nil =>
    intro L _ _
    match L with
    | 0 => rfl
    | l + 1 =>
      rw [List.nil_append, takeRun, if_pos ht]
  | cons x p ih =>
    intro L hterm hlen
    simp only [List.length_cons] at hlen
    obtain ⟨l, rfl⟩ : ∃ l, L = l + 1 := ⟨L - 1, by omega⟩
    rw [List.cons_append, takeRun]
    rw [if_neg (by rw [hterm x (List.mem_cons_self x p)]; simp)]
    rw [ih l (fun c hc => hterm c (List.mem_cons_of_mem x hc)) (by omega)]

theorem dropRun_stop (t : Nat) (r : JSStr) (ht : isLineTerm t = true) :
    ∀ (p : JSStr) (L : Nat), (∀ c ∈ p, isLineTerm c = false) → p.length ≤ L →
      dropRun L (p ++ t :: r) = t :: r := by
  intro p
  induction p with
  | nil =>
    intro L _ _
    match L with
    | 0 => rfl
    | l + 1 =>
      rw [List.nil_append, dropRun, if_pos ht]
  | cons x p ih =>
    intro L hterm hlen
    simp only [List.length_cons] at hlen
    obtain ⟨l, rfl⟩ : ∃ l, L = l + 1 := ⟨L - 1, by omega⟩
    rw [List.cons_append, dropRun]
    rw [if_neg (by rw [hterm x (List.mem_cons_self x p)]; simp)]
    rw [ih l (fun c hc => hterm c (List.mem_cons_of_mem x hc)) (by omega)]

/-- One match step: a nonempty terminator-free prefix delimited by a
terminator becomes one piece. -/
theorem chunkMatchesFuel_piece (L fuel : Nat) (t : Nat) (r : JSStr)
    (ht : isLineTerm t = true) (p : JSStr) (hne : p ≠ [])
    (hterm : ∀ c ∈ p, isLineTerm c = false) (hlen : p.length ≤ L) :
    chunkMatchesFuel L (fuel + 1) (p ++ t :: r) = p :: chunkMatchesFuel L fuel (t :: r) := by
  match p, hne with
  | x :: p, _ =>
    rw [List.cons_append, chunkMatchesFuel]
    rw [if_neg (by rw [hterm x (List.mem_cons_self x p)]; simp)]
    rw [show x :: (p ++ t :: r) = (x :: p) ++ t :: r from rfl]
    rw [takeRun_stop t r ht (x :: p) L hterm hlen]
    rw [dropRun_stop t r ht (x :: p) L hterm hlen]

/-- The matcher skips a block of terminators, spending one fuel per unit. -/
theorem chunkMatchesFuel_skip (L : Nat) (t : Nat) (ht : isLineTerm t = true) :
    ∀ (n fuel : Nat) (r : JSStr), n ≤ fuel →
      chunkMatchesFuel L fuel (List.replicate n t ++ r) =
        chunkMatchesFuel L (fuel - n) r := by
  intro n
  induction n with
  | zero =>
    intro fuel r _
    rw [List.replicate_zero, List.nil_append, Nat.sub_zero]
  | succ n ih =>
    intro fuel r hn
    match fuel, hn with
    | f + 1, _ =>
      rw [List.replicate_succ, List.cons_append, chunkMatchesFuel, if_pos ht]
      rw [ih f r (by omega)]
      have heq : f - n = f + 1 - (n + 1) := by omega
      rw [heq]

/-!
The JSON data model.  A document (`Json`) is what `JSON.parse` can produce and
`JSON.stringify` can serialize; numbers are modelled as integers (the only
numbers this store's callers use; float formatting is out of scope), strings
as code-unit lists.  Arrays and objects use mutually inductive list types so
that structural induction over the whole family is available.
-/

mutual
inductive Json where
  | null : Json
  | bool : Bool → Json
  | num : Int → Json
  | str : JSStr → Json
  | arr : JsonList → Json
  | obj : JsonMembers → Json
inductive JsonList where
  | nil : JsonList
  | cons : Json → JsonList → JsonList
inductive JsonMembers where
  | nil : JsonMembers
  | cons : JSStr → Json → JsonMembers → JsonMembers
end

deriving instance DecidableEq for Json

/-- Hexadecimal digit character (lowercase), as `Number.prototype.toString(16)`. -/
def hexDig (n : Nat) : Nat := if n < 10 then 48 + n else 87 + n

/-- `JSON.stringify`'s escaping of one string code unit (`QuoteJSONString`):
backslash-escapes for `"`, `\`, backspace, tab, LF, FF, CR, a `\u00XX` escape
for the other control characters, everything else copied as is. -/
def escChar (c : Nat) : JSStr :=
  if c = 34 then [92, 34]
  else if c = 92 then [92, 92]
  else if c = 8 then [92, 98]
  else if c = 9 then [92, 116]
  else if c = 10 then [92, 110]
  else if c = 12 then [92, 102]
  else if c = 13 then [92, 114]
  else if c < 32 then [92, 117, 48, 48, hexDig (c / 16), hexDig (c % 16)]
  else [c]

def escBody (s : JSStr) : JSStr := (s.map escChar).flatten

/-- A serialized JSON string literal: quote, escaped body, quote. -/
def strQuote (s : JSStr) : JSStr := 34 :: (escBody s ++ [34])

/-- Serialization of our integer JSON numbers (decimal, `-` for negatives). -/
def intDec : Int → JSStr
  | .ofNat m => natDec m
  | .negSucc m => 45 :: natDec (m + 1)

mutual
/-- Model of `JSON.stringify` (no indentation: the default rendering). -/
def strVal : Json → JSStr
  | .null => [110, 117, 108, 108]
  | .bool true => [116, 114, 117, 101]
  | .bool false => [102, 97, 108, 115, 101]
  | .num n => intDec n
  | .str s => strQuote s
  | .arr .nil => [91, 93]
  | .arr (.cons h t) => 91 :: (strVal h ++ (strElems t ++ [93]))
  | .obj .nil => [123, 125]
  | .obj (.cons k v t) => 123 :: (strQuote k ++ (58 :: (strVal v ++ (strMembs t ++ [125]))))
/-- The `",elem"` tail of a serialized nonempty array. -/
def strElems : JsonList → JSStr
  | .nil => []
  | .cons h t => 44 :: (strVal h ++ strElems t)
/-- The `",key:value"` tail of a serialized nonempty object. -/
def strMembs : JsonMembers → JSStr
  | .nil => []
  | .cons k v t => 44 :: (strQuote k ++ (58 :: (strVal v ++ strMembs t)))
end

mutual
/-- A genuine JS document: every string code unit is a UTF-16 unit. -/
def wfDoc : Json → Bool
  | .null => true
  | .bool _ => true
  | .num _ => true
  | .str s => s.all (fun c => decide (c < 65536))
  | .arr xs => wfList xs
  | .obj kvs => wfMembs kvs
def wfList : JsonList → Bool
  | .nil => true
  | .cons h t => wfDoc h && wfList t
def wfMembs : JsonMembers → Bool
  | .nil => true
  | .cons k v t => k.all (fun c => decide (c < 65536)) && wfDoc v && wfMembs t
end

mutual
/-- No string of the document contains U+2028 or U+2029 (the two code points
`JSON.stringify` leaves raw although the regex `.` will not match them). -/
def noSepDoc : Json → Bool
  | .null => true
  | .bool _ => true
  | .num _ => true
  | .str s => s.all (fun c => !(c == 8232 || c == 8233))
  | .arr xs => noSepList xs
  | .obj kvs => noSepMembs kvs
def noSepList : JsonList → Bool
  | .nil => true
  | .cons h t => noSepDoc h && noSepList t
def noSepMembs : JsonMembers → Bool
  | .nil => true
  | .cons k v t => k.all (fun c => !(c == 8232 || c == 8233)) && noSepDoc v && noSepMembs t
end

theorem hexDig_lt (n : Nat) (h : n < 16) : 48 ≤ hexDig n ∧ hexDig n ≤ 102 := by
  rw [hexDig]
  by_cases h10 : n < 10
  · rw [if_pos h10]; omega
  · rw [if_neg h10]; omega

theorem escChar_units (c : Nat) :
    ∀ x ∈ escChar c, (48 ≤ x ∧ x ≤ 117) ∨ x = 34 ∨ x = 92 ∨ (x = c ∧ 32 ≤ c) := by
  intro x hx
  rw [escChar] at hx
  split_ifs at hx with h1 h2 h3 h4 h5 h6 h7 h8
  · simp at hx; omega
  · simp at hx; omega
  · simp at hx; omega
  · simp at hx; omega
  · simp at hx; omega
  · simp at hx; omega
  · simp at hx; omega
  · have ha := hexDig_lt (c / 16) (by omega)
    have hb := hexDig_lt (c % 16) (by omega)
    simp at hx
    omega
  · simp at hx
    omega

/-- Escaped string bodies contain no line terminator provided the raw string
avoids U+2028/U+2029 (the only line terminators `JSON.stringify` keeps raw). -/
theorem escBody_noTerm (s : JSStr) (hs : s.all (fun c => !(c == 8232 || c == 8233)) = true) :
    ∀ x ∈ escBody s, isLineTerm x = false := by
  intro x hx
  rw [escBody] at hx
  rcases List.mem_flatten.mp hx with ⟨l, hl, hxl⟩
  rcases List.mem_map.mp hl with ⟨c, hcs, rfl⟩
  have hc : (c == 8232 || c == 8233) = false := by
    have := List.all_eq_true.mp hs c hcs
    simpa using this
  rcases escChar_units c x hxl with h | h | h | h
  · simp [isLineTerm]; omega
  · subst h; rfl
  · subst h; rfl
  · rcases h with ⟨rfl, hge⟩
    simp [isLineTerm]
    simp at hc
    omega

theorem escBody_units (s : JSStr) (hs : s.all (fun c => decide (c < 65536)) = true) :
    ∀ x ∈ escBody s, x < 65536 := by
  intro x hx
  rw [escBody] at hx
  rcases List.mem_flatten.mp hx with ⟨l, hl, hxl⟩
  rcases List.mem_map.mp hl with ⟨c, hcs, rfl⟩
  have hc : c < 65536 := by
    have := List.all_eq_true.mp hs c hcs
    simpa using this
  rcases escChar_units c x hxl with h | h | h | h
  · omega
  · omega
  · omega
  · rcases h with ⟨rfl, _⟩; exact hc

theorem intDec_digits (n : Int) :
    ∀ c ∈ intDec n, (48 ≤ c ∧ c ≤ 57) ∨ c = 45 := by
  intro c hc
  match n with
  | .ofNat m =>
    rw [intDec] at hc
    have := toStringBase_all 8 m c hc
    left; omega
  | .negSucc m =>
    rw [intDec] at hc
    rcases List.mem_cons.mp hc with h | h
    · right; exact h
    · have := toStringBase_all 8 (m + 1) c h
      left; omega

theorem strQuote_noTerm (k : JSStr) (hk : k.all (fun c => !(c == 8232 || c == 8233)) = true) :
    ∀ x ∈ strQuote k, isLineTerm x = false := by
  intro x hx
  rw [strQuote] at hx
  rcases List.mem_cons.mp hx with rfl | hx2
  · rfl
  · rcases List.mem_append.mp hx2 with h3 | h3
    · exact escBody_noTerm k hk x h3
    · simp at h3; subst h3; rfl

theorem strQuote_units (k : JSStr) (hk : k.all (fun c => decide (c < 65536)) = true) :
    ∀ x ∈ strQuote k, x < 65536 := by
  intro x hx
  rw [strQuote] at hx
  rcases List.mem_cons.mp hx with rfl | hx2
  · omega
  · rcases List.mem_append.mp hx2 with h3 | h3
    · exact escBody_units k hk x h3
    · simp at h3; omega

mutual
/-- Serialized output of a document avoiding raw U+2028/U+2029 contains no
line terminator, so the regex split loses nothing (claims C1, C8). -/
theorem strVal_noTerm : ∀ (d : Json), noSepDoc d = true → ∀ x ∈ strVal d, isLineTerm x = false
  | .null => by
    intro _ x hx
    simp [strVal] at hx
    simp [isLineTerm]
    omega
  | .bool true => by
    intro _ x hx
    simp [strVal] at hx
    simp [isLineTerm]
    omega
  | .bool false => by
    intro _ x hx
    simp [strVal] at hx
    simp [isLineTerm]
    omega
  | .num n => by
    intro _ x hx
    have := intDec_digits n x (by simpa [strVal] using hx)
    simp [isLineTerm]
    omega
  | .str s => by
    intro h x hx
    exact strQuote_noTerm s (by simpa [noSepDoc] using h) x (by simpa [strVal] using hx)
  | .arr .nil => by
    intro _ x hx
    simp [strVal] at hx
    simp [isLineTerm]
    omega
  | .arr (.cons h t) => by
    intro hh x hx
    rw [strVal] at hx
    have hset : noSepDoc h = true ∧ noSepList t = true := by
      simpa [noSepDoc, noSepList] using hh
    rcases List.mem_cons.mp hx with rfl | hx2
    · rfl
    · rcases List.mem_append.mp hx2 with h3 | h3
      · exact strVal_noTerm h hset.1 x h3
      · rcases List.mem_append.mp h3 with h4 | h4
        · exact strElems_noTerm t hset.2 x h4
        · simp at h4; subst h4; rfl
  | .obj .nil => by
    intro _ x hx
    simp [strVal] at hx
    simp [isLineTerm]
    omega
  | .obj (.cons k v t) => by
    intro hh x hx
    rw [strVal] at hx
    have hset : (k.all (fun c => !(c == 8232 || c == 8233)) = true ∧
        noSepDoc v = true) ∧ noSepMembs t = true := by
      have h0 := hh
      rw [noSepDoc, noSepMembs, Bool.and_eq_true, Bool.and_eq_true] at h0
      exact h0
    rcases List.mem_cons.mp hx with rfl | hx2
    · rfl
    · rcases List.mem_append.mp hx2 with h3 | h3
      · exact strQuote_noTerm k hset.1.1 x h3
      · rcases List.mem_cons.mp h3 with rfl | h4
        · rfl
        · rcases List.mem_append.mp h4 with h5 | h5
          · exact strVal_noTerm v hset.1.2 x h5
          · rcases List.mem_append.mp h5 with h6 | h6
            · exact strMembs_noTerm t hset.2 x h6
            · simp at h6; subst h6; rfl

theorem strElems_noTerm : ∀ (xs : JsonList), noSepList xs = true →
    ∀ x ∈ strElems xs, isLineTerm x = false
  | .nil => by
    intro _ x hx
    simp [strElems] at hx
  | .cons h t => by
    intro hh x hx
    rw [strElems] at hx
    have hset : noSepDoc h = true ∧ noSepList t = true := by
      simpa [noSepList] using hh
    rcases List.mem_cons.mp hx with rfl | hx2
    · rfl
    · rcases List.mem_append.mp hx2 with h3 | h3
      · exact strVal_noTerm h hset.1 x h3
      · exact strElems_noTerm t hset.2 x h3

theorem strMembs_noTerm : ∀ (kvs : JsonMembers), noSepMembs kvs = true →
    ∀ x ∈ strMembs kvs, isLineTerm x = false
  | .nil => by
    intro _ x hx
    simp [strMembs] at hx
  | .cons k v t => by
    intro hh x hx
    rw [strMembs] at hx
    have hset : (k.all (fun c => !(c == 8232 || c == 8233)) = true ∧
        noSepDoc v = true) ∧ noSepMembs t = true := by
      have h0 := hh
      rw [noSepMembs, Bool.and_eq_true, Bool.and_eq_true] at h0
      exact h0
    rcases List.mem_cons.mp hx with rfl | hx2
    · rfl
    · rcases List.mem_append.mp hx2 with h3 | h3
      · exact strQuote_noTerm k hset.1.1 x h3
      · rcases List.mem_cons.mp h3 with rfl | h4
        · rfl
        · rcases List.mem_append.mp h4 with h5 | h5
          · exact strVal_noTerm v hset.1.2 x h5
          · exact strMembs_noTerm t hset.2 x h5
end

mutual
/-- Serialized output of a well-formed document stays below `2 ^ 16` per code
unit, so the codec round-trips every chunk (claim C1). -/
theorem strVal_units : ∀ (d : Json), wfDoc d = true → ∀ x ∈ strVal d, x < 65536
  | .null => by
    intro _ x hx
    simp [strVal] at hx
    omega
  | .bool true => by
    intro _ x hx
    simp [strVal] at hx
    omega
  | .bool false => by
    intro _ x hx
    simp [strVal] at hx
    omega
  | .num n => by
    intro _ x hx
    have := intDec_digits n x (by simpa [strVal] using hx)
    omega
  | .str s => by
    intro h x hx
    exact strQuote_units s (by simpa [wfDoc] using h) x (by simpa [strVal] using hx)
  | .arr .nil => by
    intro _ x hx
    simp [strVal] at hx
    omega
  | .arr (.cons h t) => by
    intro hh x hx
    rw [strVal] at hx
    have hset : wfDoc h = true ∧ wfList t = true := by
      simpa [wfDoc, wfList] using hh
    rcases List.mem_cons.mp hx with rfl | hx2
    · omega
    · rcases List.mem_append.mp hx2 with h3 | h3
      · exact strVal_units h hset.1 x h3
      · rcases List.mem_append.mp h3 with h4 | h4
        · exact strElems_units t hset.2 x h4
        · simp at h4; omega
  | .obj .nil => by
    intro _ x hx
    simp [strVal] at hx
    omega
  | .obj (.cons k v t) => by
    intro hh x hx
    rw [strVal] at hx
    have hset : (k.all (fun c => decide (c < 65536)) = true ∧
        wfDoc v = true) ∧ wfMembs t = true := by
      have h0 := hh
      rw [wfDoc, wfMembs, Bool.and_eq_true, Bool.and_eq_true] at h0
      exact h0
    rcases List.mem_cons.mp hx with rfl | hx2
    · omega
    · rcases List.mem_append.mp hx2 with h3 | h3
      · exact strQuote_units k hset.1.1 x h3
      · rcases List.mem_cons.mp h3 with rfl | h4
        · omega
        · rcases List.mem_append.mp h4 with h5 | h5
          · exact strVal_units v hset.1.2 x h5
          · rcases List.mem_append.mp h5 with h6 | h6
            · exact strMembs_units t hset.2 x h6
            · simp at h6; omega

theorem strElems_units : ∀ (xs : JsonList), wfList xs = true → ∀ x ∈ strElems xs, x < 65536
  | .nil => by
    intro _ x hx
    simp [strElems] at hx
  | .cons h t => by
    intro hh x hx
    rw [strElems] at hx
    have hset : wfDoc h = true ∧ wfList t = true := by
      simpa [wfList] using hh
    rcases List.mem_cons.mp hx with rfl | hx2
    · omega
    · rcases List.mem_append.mp hx2 with h3 | h3
      · exact strVal_units h hset.1 x h3
      · exact strElems_units t hset.2 x h3

theorem strMembs_units : ∀ (kvs : JsonMembers), wfMembs kvs = true →
    ∀ x ∈ strMembs kvs, x < 65536
  | .nil => by
    intro _ x hx
    simp [strMembs] at hx
  | .cons k v t => by
    intro hh x hx
    rw [strMembs] at hx
    have hset : (k.all (fun c => decide (c < 65536)) = true ∧
        wfDoc v = true) ∧ wfMembs t = true := by
      have h0 := hh
      rw [wfMembs, Bool.and_eq_true, Bool.and_eq_true] at h0
      exact h0
    rcases List.mem_cons.mp hx with rfl | hx2
    · omega
    · rcases List.mem_append.mp hx2 with h3 | h3
      · exact strQuote_units k hset.1.1 x h3
      · rcases List.mem_cons.mp h3 with rfl | h4
        · omega
        · rcases List.mem_append.mp h4 with h5 | h5
          · exact strVal_units v hset.1.2 x h5
          · exact strMembs_units t hset.2 x h5
end

/-- Every serialized value starts with a character that is matched by the
regex dot and is neither `]` nor `}`. -/
theorem strVal_head (d : Json) :
    ∃ c cs, strVal d = c :: cs ∧ isLineTerm c = false ∧ c ≠ 93 ∧ c ≠ 125 := by
  match d with
  | .null => exact ⟨110, _, rfl, by decide, by decide, by decide⟩
  | .bool true => exact ⟨116, _, rfl, by decide, by decide, by decide⟩
  | .bool false => exact ⟨102, _, rfl, by decide, by decide, by decide⟩
  | .str s => exact ⟨34, _, rfl, by decide, by decide, by decide⟩
  | .arr .nil => exact ⟨91, _, rfl, by decide, by decide, by decide⟩
  | .arr (.cons h t) => exact ⟨91, _, rfl, by decide, by decide, by decide⟩
  | .obj .nil => exact ⟨123, _, rfl, by decide, by decide, by decide⟩
  | .obj (.cons k v t) => exact ⟨123, _, rfl, by decide, by decide, by decide⟩
  | .num (.ofNat m) =>
    match hh : natDec m with
    | [] => exact absurd hh (toStringBase_ne_nil 8 m)
    | d0 :: rest =>
      have hd : 48 ≤ d0 ∧ d0 ≤ 57 := by
        have hh2 : toStringBase 8 m = d0 :: rest := hh
        have := toStringBase_all 8 m d0 (by rw [hh2]; exact List.mem_cons_self d0 rest)
        omega
      refine ⟨d0, rest, by rw [show strVal (.num (.ofNat m)) = natDec m from rfl, hh], ?_, by omega, by omega⟩
      simp [isLineTerm]
      omega
  | .num (.negSucc m) =>
    refine ⟨45, natDec (m + 1), ?_, by decide, by decide, by decide⟩
    rw [show strVal (.num (.negSucc m)) = 45 :: natDec (m + 1) from rfl]

theorem strVal_ne_nil (d : Json) : strVal d ≠ [] := by
  rcases strVal_head d with ⟨c, cs, heq, _⟩
  rw [heq]
  simp

/-!
Model of `JSON.parse`, restricted to the grammar `JSON.stringify` emits (no
insignificant whitespace, integer numerals): a recursive-descent parser over
code units, structural on a fuel counter (`input.length + 1` always suffices
on serialized output; running out of fuel is a parse error).  Every text this
development feeds to it is either serialized output or arbitrary (for the
error-fallback claims, which hold whatever the parse result is).
-/

/-- Value of a hexadecimal digit character (JSON accepts both cases). -/
def hexVal (c : Nat) : Option Nat :=
  if 48 ≤ c ∧ c ≤ 57 then some (c - 48)
  else if 97 ≤ c ∧ c ≤ 102 then some (c - 87)
  else if 65 ≤ c ∧ c ≤ 70 then some (c - 55)
  else none

def hex4 (a b c d : Nat) : Option Nat :=
  match hexVal a, hexVal b, hexVal c, hexVal d with
  | some x, some y, some z, some w => some (((x * 16 + y) * 16 + z) * 16 + w)
  | _, _, _, _ => none

/-- Single-character JSON string escapes. -/
def escUn (e : Nat) : Option Nat :=
  if e = 34 then some 34
  else if e = 92 then some 92
  else if e = 47 then some 47
  else if e = 98 then some 8
  else if e = 116 then some 9
  else if e = 110 then some 10
  else if e = 102 then some 12
  else if e = 114 then some 13
  else none

def consFst (c : Nat) : Except Unit (JSStr × JSStr) → Except Unit (JSStr × JSStr)
  | .ok (u, r) => .ok (c :: u, r)
  | .error _ => .error ()

/-- Parse a JSON string body after the opening quote, producing the decoded
units and the remainder after the closing quote.  Unescaped control
characters, invalid escapes, truncated `\uXXXX` and a missing closing quote
are errors, as in `JSON.parse`. -/
def parseStrBody : JSStr → Except Unit (JSStr × JSStr)
  | [] => .error ()
  | c :: r =>
    if c = 34 then .ok ([], r)
    else if c = 92 then
      match r with
      | [] => .error ()
      | e :: r2 =>
        if e = 117 then
          match r2 with
          | a :: b :: c2 :: d2 :: r3 =>
            match hex4 a b c2 d2 with
            | some v => consFst v (parseStrBody r3)
            | none => .error ()
          | _ => .error ()
        else
          match escUn e with
          | some u => consFst u (parseStrBody r2)
          | none => .error ()
    else if c < 32 then .error ()
    else consFst c (parseStrBody r)

/-- Longest decimal-digit prefix as a number (integer numerals only — all
`JSON.stringify` emits for this store's documents). -/
def parseNatNum (s : JSStr) : Option (Nat × JSStr) :=
  let ds := s.takeWhile isDecDigit
  if ds = [] then none else some (valDigits 10 ds, s.dropWhile isDecDigit)

/-- `tok` must follow; used for the fixed tails of `null`, `true`, `false`. -/
def expectTail (tok : JSStr) (s : JSStr) (v : Json) : Except Unit (Json × JSStr) :=
  if s.take tok.length = tok then .ok (v, s.drop tok.length) else .error ()

mutual
def parseVal : Nat → JSStr → Except Unit (Json × JSStr)
  | 0, _ => .error ()
  | fuel + 1, s =>
    match s with
    | [] => .error ()
    | c :: r =>
      if c = 110 then expectTail [117, 108, 108] r .null
      else if c = 116 then expectTail [114, 117, 101] r (.bool true)
      else if c = 102 then expectTail [97, 108, 115, 101] r (.bool false)
      else if c = 34 then
        match parseStrBody r with
        | .ok (u, r2) => .ok (.str u, r2)
        | .error _ => .error ()
      else if c = 45 then
        match parseNatNum r with
        | some (n, r2) => .ok (.num (-(n : Int)), r2)
        | none => .error ()
      else if c = 91 then
        if r.head? = some 93 then .ok (.arr .nil, r.tail)
        else
          match parseVal fuel r with
          | .ok (h, r1) =>
            match parseElems fuel r1 with
            | .ok (t, r2) => .ok (.arr (.cons h t), r2)
            | .error _ => .error ()
          | .error _ => .error ()
      else if c = 123 then
        if r.head? = some 125 then .ok (.obj .nil, r.tail)
        else
          match r with
          | 34 :: r1 =>
            match parseStrBody r1 with
            | .ok (k, r2) =>
              match r2 with
              | 58 :: r3 =>
                match parseVal fuel r3 with
                | .ok (v, r4) =>
                  match parseMembs fuel r4 with
                  | .ok (t, r5) => .ok (.obj (.cons k v t), r5)
                  | .error _ => .error ()
                | .error _ => .error ()
              | _ => .error ()
            | .error _ => .error ()
          | _ => .error ()
      else if isDecDigit c then
        match parseNatNum (c :: r) with
        | some (n, r2) => .ok (.num (n : Int), r2)
        | none => .error ()
      else .error ()

def parseElems : Nat → JSStr → Except Unit (JsonList × JSStr)
  | 0, _ => .error ()
  | fuel + 1, s =>
    match s with
    | [] => .error ()
    | c :: r =>
      if c = 93 then .ok (.nil, r)
      else if c = 44 then
        match parseVal fuel r with
        | .ok (h, r1) =>
          match parseElems fuel r1 with
          | .ok (t, r2) => .ok (.cons h t, r2)
          | .error _ => .error ()
        | .error _ => .error ()
      else .error ()

def parseMembs : Nat → JSStr → Except Unit (JsonMembers × JSStr)
  | 0, _ => .error ()
  | fuel + 1, s =>
    match s with
    | [] => .error ()
    | c :: r =>
      if c = 125 then .ok (.nil, r)
      else if c = 44 then
        match r with
        | 34 :: r1 =>
          match parseStrBody r1 with
          | .ok (k, r2) =>
            match r2 with
            | 58 :: r3 =>
              match parseVal fuel r3 with
              | .ok (v, r4) =>
                match parseMembs fuel r4 with
                | .ok (t, r5) => .ok (.cons k v t, r5)
                | .error _ => .error ()
              | .error _ => .error ()
            | _ => .error ()
          | .error _ => .error ()
        | _ => .error ()
      else .error ()
end

/-- Model of `JSON.parse`: parse one value, require the input consumed. -/
def parseJson (s : JSStr) : Except Unit Json :=
  match parseVal (s.length + 1) s with
  | .ok (j, []) => .ok j
  | _ => .error ()

mutual
/-- Fuel needed by `parseVal` on the serialized form of a document. -/
def jsize : Json → Nat
  | .null => 1
  | .bool _ => 1
  | .num _ => 1
  | .str _ => 1
  | .arr xs => 1 + jlSize xs
  | .obj kvs => 1 + jmSize kvs
def jlSize : JsonList → Nat
  | .nil => 0
  | .cons h t => 1 + jsize h + jlSize t
def jmSize : JsonMembers → Nat
  | .nil => 0
  | .cons _ v t => 1 + jsize v + jmSize t
end

theorem jsize_pos (d : Json) : 1 ≤ jsize d := by
  match d with
  | .null => simp [jsize]
  | .bool _ => simp [jsize]
  | .num _ => simp [jsize]
  | .str _ => simp [jsize]
  | .arr xs => simp [jsize]
  | .obj kvs => simp [jsize]

theorem hexVal_hexDig : ∀ d < 16, hexVal (hexDig d) = some d := by decide

theorem escBody_cons (x : Nat) (s : JSStr) : escBody (x :: s) = escChar x ++ escBody s := by
  rw [escBody, escBody]
  simp

/-- Parsing an escaped body undoes the escaping and stops at the quote. -/
theorem parseStrBody_escBody (s : JSStr) :
    ∀ r, parseStrBody (escBody s ++ 34 :: r) = .ok (s, r) := by
  induction s with
  | nil =>
    intro r
    rw [escBody]
    simp only [List.map_nil, List.flatten_nil, List.nil_append]
    rw [parseStrBody.eq_def]
    simp
  | cons x s ih =>
    intro r
    rw [escBody_cons, List.append_assoc]
    rw [escChar]
    split_ifs with h1 h2 h3 h4 h5 h6 h7 h8
    · subst h1; rw [parseStrBody.eq_def]; simp [escUn, consFst, ih]
    · subst h2; rw [parseStrBody.eq_def]; simp [escUn, consFst, ih]
    · subst h3; rw [parseStrBody.eq_def]; simp [escUn, consFst, ih]
    · subst h4; rw [parseStrBody.eq_def]; simp [escUn, consFst, ih]
    · subst h5; rw [parseStrBody.eq_def]; simp [escUn, consFst, ih]
    · subst h6; rw [parseStrBody.eq_def]; simp [escUn, consFst, ih]
    · subst h7; rw [parseStrBody.eq_def]; simp [escUn, consFst, ih]
    · have hv1 : hexVal (hexDig (x / 16)) = some (x / 16) := hexVal_hexDig _ (by omega)
      have hv2 : hexVal (hexDig (x % 16)) = some (x % 16) := hexVal_hexDig _ (by omega)
      simp only [List.cons_append, List.nil_append]
      rw [parseStrBody.eq_def]
      simp [hex4, hv1, hv2, show hexVal 48 = some 0 from by decide, consFst, ih]
      omega
    · simp only [List.cons_append, List.nil_append]
      rw [parseStrBody.eq_def]
      simp only []
      rw [if_neg h1, if_neg h2, if_neg (by omega)]
      rw [ih r]
      rfl

theorem takeWhile_append_all (p : Nat → Bool) :
    ∀ (l r : JSStr), (∀ c ∈ l, p c = true) → (l ++ r).takeWhile p = l ++ r.takeWhile p := by
  intro l
  induction l with
  | nil => intro r _; simp
  | cons x l ih =>
    intro r hl
    rw [List.cons_append, List.takeWhile_cons, hl x (List.mem_cons_self x l)]
    rw [ih r (fun c hc => hl c (List.mem_cons_of_mem x hc))]
    simp

theorem dropWhile_append_all (p : Nat → Bool) :
    ∀ (l r : JSStr), (∀ c ∈ l, p c = true) → (l ++ r).dropWhile p = r.dropWhile p := by
  intro l
  induction l with
  | nil => intro r _; simp
  | cons x l ih =>
    intro r hl
    rw [List.cons_append, List.dropWhile_cons, hl x (List.mem_cons_self x l)]
    rw [ih r (fun c hc => hl c (List.mem_cons_of_mem x hc))]
    simp

/-- A separator continuation: empty, or starting with `,`, `]`, `}` — what can
follow a serialized value inside a document. -/
def sepB : JSStr → Bool
  | [] => true
  | c :: _ => c == 44 || c == 93 || c == 125

theorem takeWhile_sep (r : JSStr) (h : sepB r = true) : r.takeWhile isDecDigit = [] := by
  match r with
  | [] => rfl
  | c :: r2 =>
    rw [sepB] at h
    simp at h
    simp [List.takeWhile_cons, show isDecDigit c = false from by simp [isDecDigit]; omega]

theorem dropWhile_sep (r : JSStr) (h : sepB r = true) : r.dropWhile isDecDigit = r := by
  match r with
  | [] => rfl
  | c :: r2 =>
    rw [sepB] at h
    simp at h
    simp [List.dropWhile_cons, show isDecDigit c = false from by simp [isDecDigit]; omega]

theorem natDec_digits (m : Nat) : ∀ c ∈ natDec m, isDecDigit c = true := by
  intro c hc
  have := toStringBase_all 8 m c hc
  simp [isDecDigit]
  omega

theorem parseNatNum_natDec (m : Nat) (r : JSStr) (hr : sepB r = true) :
    parseNatNum (natDec m ++ r) = some (m, r) := by
  simp only [parseNatNum]
  rw [takeWhile_append_all isDecDigit (natDec m) r (natDec_digits m)]
  rw [takeWhile_sep r hr, List.append_nil]
  rw [if_neg (show ¬(natDec m = []) from toStringBase_ne_nil 8 m)]
  rw [dropWhile_append_all isDecDigit (natDec m) r (natDec_digits m)]
  rw [dropWhile_sep r hr]
  have hv := valDigits_toStringBase 8 m
  rw [show (8 : Nat) + 2 = 10 from rfl] at hv
  rw [show natDec m = toStringBase 8 m from rfl, hv]

theorem sepB_strElems (t : JsonList) (r : JSStr) : sepB (strElems t ++ 93 :: r) = true := by
  match t with
  | .nil => rfl
  | .cons h t2 => rfl

theorem sepB_strMembs (t : JsonMembers) (r : JSStr) : sepB (strMembs t ++ 125 :: r) = true := by
  match t with
  | .nil => rfl
  | .cons k v t2 => rfl

theorem expectTail_exact (tok : JSStr) (r : JSStr) (v : Json) :
    expectTail tok (tok ++ r) v = .ok (v, r) := by
  rw [expectTail]
  rw [List.take_left, List.drop_left]
  simp

mutual
/-- The parser inverts the serializer: `parseVal` consumes exactly the
serialized value and returns it, given a separator continuation and enough
fuel (claim C1's core). -/
theorem parseVal_strVal : ∀ (d : Json) (fuel : Nat) (r : JSStr), sepB r = true →
    jsize d ≤ fuel → parseVal fuel (strVal d ++ r) = .ok (d, r)
  | .null, fuel, r, hsep, hfuel => by
    obtain ⟨f, rfl⟩ : ∃ f, fuel = f + 1 :=
      ⟨fuel - 1, by have := le_trans (jsize_pos _) hfuel; omega⟩
    rw [show strVal Json.null ++ r = 110 :: ([117, 108, 108] ++ r) from rfl]
    simp only [parseVal]
    exact expectTail_exact [117, 108, 108] r Json.null
  | .bool true, fuel, r, hsep, hfuel => by
    obtain ⟨f, rfl⟩ : ∃ f, fuel = f + 1 :=
      ⟨fuel - 1, by have := le_trans (jsize_pos _) hfuel; omega⟩
    rw [show strVal (Json.bool true) ++ r = 116 :: ([114, 117, 101] ++ r) from rfl]
    simp only [parseVal]
    exact expectTail_exact [114, 117, 101] r (Json.bool true)
  | .bool false, fuel, r, hsep, hfuel => by
    obtain ⟨f, rfl⟩ : ∃ f, fuel = f + 1 :=
      ⟨fuel - 1, by have := le_trans (jsize_pos _) hfuel; omega⟩
    rw [show strVal (Json.bool false) ++ r = 102 :: ([97, 108, 115, 101] ++ r) from rfl]
    simp only [parseVal]
    exact expectTail_exact [97, 108, 115, 101] r (Json.bool false)
  | .str s, fuel, r, hsep, hfuel => by
    obtain ⟨f, rfl⟩ : ∃ f, fuel = f + 1 :=
      ⟨fuel - 1, by have := le_trans (jsize_pos _) hfuel; omega⟩
    rw [show strVal (Json.str s) ++ r = 34 :: (escBody s ++ (34 :: r)) from by
      rw [show strVal (Json.str s) = strQuote s from rfl, strQuote]
      simp]
    simp [parseVal, parseStrBody_escBody]
  | .num (.ofNat m), fuel, r, hsep, hfuel => by
    obtain ⟨f, rfl⟩ : ∃ f, fuel = f + 1 :=
      ⟨fuel - 1, by have := le_trans (jsize_pos _) hfuel; omega⟩
    match hh : natDec m with
    | [] => exact absurd hh (toStringBase_ne_nil 8 m)
    | d0 :: rest =>
      have hd : 48 ≤ d0 ∧ d0 ≤ 57 := by
        have hh2 : toStringBase 8 m = d0 :: rest := hh
        have := toStringBase_all 8 m d0 (by rw [hh2]; exact List.mem_cons_self d0 rest)
        omega
      rw [show strVal (Json.num (.ofNat m)) = natDec m from rfl, hh, List.cons_append]
      simp only [parseVal]
      rw [if_neg (by omega), if_neg (by omega), if_neg (by omega), if_neg (by omega),
        if_neg (by omega), if_neg (by omega), if_neg (by omega)]
      rw [if_pos (show isDecDigit d0 = true from by simp [isDecDigit]; omega)]
      rw [show d0 :: (rest ++ r) = (d0 :: rest) ++ r from rfl, ← hh]
      rw [parseNatNum_natDec m r hsep]
      rfl
  | .num (.negSucc m), fuel, r, hsep, hfuel => by
    obtain ⟨f, rfl⟩ : ∃ f, fuel = f + 1 :=
      ⟨fuel - 1, by have := le_trans (jsize_pos _) hfuel; omega⟩
    rw [show strVal (Json.num (.negSucc m)) ++ r = 45 :: (natDec (m + 1) ++ r) from by
      rw [show strVal (Json.num (.negSucc m)) = 45 :: natDec (m + 1) from rfl]
      simp]
    simp only [parseVal]
    simp only [show (45 = 110) = False from by simp, show (45 = 116) = False from by simp,
      show (45 = 102) = False from by simp, show (45 = 34) = False from by simp,
      if_false, if_true, eq_self_iff_true]
    rw [parseNatNum_natDec (m + 1) r hsep]
    show Except.ok (Json.num (-((m + 1 : Nat) : Int)), r)
      = Except.ok (Json.num (Int.negSucc m), r)
    rw [show -((m + 1 : Nat) : Int) = Int.negSucc m from by rw [Int.negSucc_eq]; push_cast; ring]
  | .arr .nil, fuel, r, hsep, hfuel => by
    obtain ⟨f, rfl⟩ : ∃ f, fuel = f + 1 :=
      ⟨fuel - 1, by have := le_trans (jsize_pos _) hfuel; omega⟩
    rw [show strVal (Json.arr .nil) ++ r = 91 :: (93 :: r) from rfl]
    simp [parseVal]
  | .arr (.cons h t), fuel, r, hsep, hfuel => by
    obtain ⟨f, rfl⟩ : ∃ f, fuel = f + 1 :=
      ⟨fuel - 1, by have := le_trans (jsize_pos _) hfuel; omega⟩
    have hsz : 1 + (1 + jsize h + jlSize t) ≤ f + 1 := by
      have heq : jsize (Json.arr (.cons h t)) = 1 + (1 + jsize h + jlSize t) := rfl
      omega
    have hfh : jsize h ≤ f := by omega
    have hft : jlSize t < f := by have := jsize_pos h; omega
    have harg : strVal (Json.arr (.cons h t)) ++ r
        = 91 :: (strVal h ++ (strElems t ++ (93 :: r))) := by
      rw [show strVal (Json.arr (.cons h t))
            = 91 :: (strVal h ++ (strElems t ++ [93])) from rfl]
      simp
    rw [harg]
    rcases strVal_head h with ⟨c0, cs0, hc0, _, hne93, _⟩
    have hhead : ¬ ((strVal h ++ (strElems t ++ (93 :: r))).head? = some 93) := by
      rw [hc0]
      simp
      exact hne93
    simp only [parseVal, if_true]
    rw [if_neg hhead]
    simp only [parseVal_strVal h f (strElems t ++ (93 :: r)) (sepB_strElems t r) hfh,
      parseElems_strElems t f r hft]
    simp
  | .obj .nil, fuel, r, hsep, hfuel => by
    obtain ⟨f, rfl⟩ : ∃ f, fuel = f + 1 :=
      ⟨fuel - 1, by have := le_trans (jsize_pos _) hfuel; omega⟩
    rw [show strVal (Json.obj .nil) ++ r = 123 :: (125 :: r) from rfl]
    simp [parseVal]
  | .obj (.cons k v t), fuel, r, hsep, hfuel => by
    obtain ⟨f, rfl⟩ : ∃ f, fuel = f + 1 :=
      ⟨fuel - 1, by have := le_trans (jsize_pos _) hfuel; omega⟩
    have hsz : 1 + (1 + jsize v + jmSize t) ≤ f + 1 := by
      have heq : jsize (Json.obj (.cons k v t)) = 1 + (1 + jsize v + jmSize t) := rfl
      omega
    have hfv : jsize v ≤ f := by omega
    have hft : jmSize t < f := by have := jsize_pos v; omega
    have harg : strVal (Json.obj (.cons k v t)) ++ r
        = 123 :: (34 :: (escBody k ++ (34 :: (58 :: (strVal v ++ (strMembs t ++ (125 :: r))))))) := by
      rw [show strVal (Json.obj (.cons k v t))
            = 123 :: (strQuote k ++ (58 :: (strVal v ++ (strMembs t ++ [125])))) from rfl,
        strQuote]
      simp
    rw [harg]
    simp [parseVal, parseStrBody_escBody,
      parseVal_strVal v f (strMembs t ++ (125 :: r)) (sepB_strMembs t r) hfv,
      parseMembs_strMembs t f r hft]

theorem parseElems_strElems : ∀ (xs : JsonList) (fuel : Nat) (r : JSStr), jlSize xs < fuel →
    parseElems fuel (strElems xs ++ 93 :: r) = .ok (xs, r)
  | .nil, fuel, r, hfuel => by
    obtain ⟨f, rfl⟩ : ∃ f, fuel = f + 1 := ⟨fuel - 1, by omega⟩
    rw [show strElems JsonList.nil ++ 93 :: r = 93 :: r from by rw [strElems]; simp]
    simp [parseElems]
  | .cons h t, fuel, r, hfuel => by
    obtain ⟨f, rfl⟩ : ∃ f, fuel = f + 1 := ⟨fuel - 1, by omega⟩
    have hsz : jlSize (JsonList.cons h t) = 1 + jsize h + jlSize t := rfl
    have hfh : jsize h ≤ f := by omega
    have hft : jlSize t < f := by have := jsize_pos h; omega
    rw [show strElems (JsonList.cons h t) ++ 93 :: r
          = 44 :: (strVal h ++ (strElems t ++ (93 :: r))) from by rw [strElems]; simp]
    simp [parseElems,
      parseVal_strVal h f (strElems t ++ (93 :: r)) (sepB_strElems t r) hfh,
      parseElems_strElems t f r hft]

theorem parseMembs_strMembs : ∀ (kvs : JsonMembers) (fuel : Nat) (r : JSStr), jmSize kvs < fuel →
    parseMembs fuel (strMembs kvs ++ 125 :: r) = .ok (kvs, r)
  | .nil, fuel, r, hfuel => by
    obtain ⟨f, rfl⟩ : ∃ f, fuel = f + 1 := ⟨fuel - 1, by omega⟩
    rw [show strMembs JsonMembers.nil ++ 125 :: r = 125 :: r from by rw [strMembs]; simp]
    simp [parseMembs]
  | .cons k v t, fuel, r, hfuel => by
    obtain ⟨f, rfl⟩ : ∃ f, fuel = f + 1 := ⟨fuel - 1, by omega⟩
    have hsz : jmSize (JsonMembers.cons k v t) = 1 + jsize v + jmSize t := rfl
    have hfv : jsize v ≤ f := by omega
    have hft : jmSize t < f := by have := jsize_pos v; omega
    rw [show strMembs (JsonMembers.cons k v t) ++ 125 :: r
          = 44 :: (34 :: (escBody k ++ (34 :: (58 :: (strVal v ++ (strMembs t ++ (125 :: r)))))))
        from by rw [strMembs, strQuote]; simp]
    simp [parseMembs, parseStrBody_escBody,
      parseVal_strVal v f (strMembs t ++ (125 :: r)) (sepB_strMembs t r) hfv,
      parseMembs_strMembs t f r hft]
end

mutual
/-- The fuel `parseJson` supplies (input length + 1) always suffices on
serialized output. -/
theorem jsize_le_strVal : ∀ (d : Json), jsize d ≤ (strVal d).length
  | .null => by simp [jsize, strVal]
  | .bool true => by simp [jsize, strVal]
  | .bool false => by simp [jsize, strVal]
  | .num n => by
    have hpos : 0 < (intDec n).length := by
      match n with
      | .ofNat m =>
        rw [intDec]
        exact List.length_pos.mpr (toStringBase_ne_nil 8 m)
      | .negSucc m => simp [intDec]
    rw [show jsize (Json.num n) = 1 from rfl, show strVal (Json.num n) = intDec n from rfl]
    omega
  | .str s => by simp [jsize, strVal, strQuote]
  | .arr .nil => by simp [jsize, jlSize, strVal]
  | .arr (.cons h t) => by
    have h1 := jsize_le_strVal h
    have h2 := jlSize_le_strElems t
    rw [show jsize (Json.arr (.cons h t)) = 1 + (1 + jsize h + jlSize t) from rfl]
    rw [show strVal (Json.arr (.cons h t)) = 91 :: (strVal h ++ (strElems t ++ [93])) from rfl]
    simp
    omega
  | .obj .nil => by simp [jsize, jmSize, strVal]
  | .obj (.cons k v t) => by
    have h1 := jsize_le_strVal v
    have h2 := jmSize_le_strMembs t
    rw [show jsize (Json.obj (.cons k v t)) = 1 + (1 + jsize v + jmSize t) from rfl]
    rw [show strVal (Json.obj (.cons k v t))
          = 123 :: (strQuote k ++ (58 :: (strVal v ++ (strMembs t ++ [125])))) from rfl]
    simp [strQuote]
    omega

theorem jlSize_le_strElems : ∀ (xs : JsonList), jlSize xs ≤ (strElems xs).length
  | .nil => by simp [jlSize, strElems]
  | .cons h t => by
    have h1 := jsize_le_strVal h
    have h2 := jlSize_le_strElems t
    rw [show jlSize (JsonList.cons h t) = 1 + jsize h + jlSize t from rfl]
    rw [show strElems (JsonList.cons h t) = 44 :: (strVal h ++ strElems t) from rfl]
    simp
    omega

theorem jmSize_le_strMembs : ∀ (kvs : JsonMembers), jmSize kvs ≤ (strMembs kvs).length
  | .nil => by simp [jmSize, strMembs]
  | .cons k v t => by
    have h1 := jsize_le_strVal v
    have h2 := jmSize_le_strMembs t
    rw [show jmSize (JsonMembers.cons k v t) = 1 + jsize v + jmSize t from rfl]
    rw [show strMembs (JsonMembers.cons k v t)
          = 44 :: (strQuote k ++ (58 :: (strVal v ++ strMembs t))) from rfl]
    simp [strQuote]
    omega
end

/-- `JSON.parse` inverts `JSON.stringify` on every document of the model. -/
theorem parseJson_strVal (d : Json) : parseJson (strVal d) = .ok d := by
  rw [parseJson]
  have h1 : parseVal ((strVal d).length + 1) (strVal d ++ []) = .ok (d, []) :=
    parseVal_strVal d _ [] rfl (by have := jsize_le_strVal d; omega)
  rw [List.append_nil] at h1
  rw [h1]

/-!
The store's in-memory cache (`this.MEMORY` of the `Database` class): a list of
`{index, data}` records, where `data` is the binary-coded chunk.

`save(json)` (lines 152–169) stringifies, splits with
`chunkString(_, MAX_DATABASE_STRING_SIZE)`, wipes, and pushes one record per
chunk (`SPLIT_DATA.entries()`); if `chunkString` returned `null`, the
`.entries()` call throws, modelled by `none`.

The `data` getter (lines 139–146) decodes every record, joins, and
`JSON.parse`s the result — all inside a `try` whose `catch` returns `{}`.
-/

structure ChunkEntry where
  index : Nat
  data : JSStr
deriving DecidableEq

/-- The scoreboard string-size cap of api.js (line 17). -/
def MAX_DATABASE_STRING_SIZE : Nat := 32000

/-- The chunk records `save` pushes into `MEMORY` for a serialized text. -/
def saveMemoryChunks (text : JSStr) : Option (List ChunkEntry) :=
  (chunkString text MAX_DATABASE_STRING_SIZE).map
    (fun cs => cs.enum.map (fun ic => ⟨ic.1, textToBinary ic.2⟩))

/-- The decoded concatenation the `data` getter parses. -/
def memText (mem : List ChunkEntry) : JSStr :=
  (mem.map (fun a => binaryToText a.data)).flatten

/-- Model of the `data` getter: parse the decoded cache, `{}` on any error. -/
def dataGet (mem : List ChunkEntry) : Json :=
  match parseJson (memText mem) with
  | .ok j => j
  | .error _ => Json.obj .nil

/-- `save(d)` then `data`: the memory after a save of document `d`. -/
def saveDoc (d : Json) : Option (List ChunkEntry) := saveMemoryChunks (strVal d)

theorem enum_snd_map {α β : Type} (l : List α) (f : α → β) :
    l.enum.map (fun ic => f ic.2) = l.map f := by
  rw [show (fun ic : Nat × α => f ic.2) = f ∘ Prod.snd from rfl]
  rw [← List.map_map, List.enum_map_snd]

/-- The save/load round-trip at the memory level, for any document whose
strings are UTF-16 and avoid U+2028/U+2029. -/
theorem saveDoc_dataGet (d : Json) (hwf : wfDoc d = true) (hsep : noSepDoc d = true) :
    ∃ mem, saveDoc d = some mem ∧ dataGet mem = d := by
  have hterm : ∀ c ∈ strVal d, isLineTerm c = false := strVal_noTerm d hsep
  have hunits : ∀ c ∈ strVal d, c < 65536 := strVal_units d hwf
  rcases C2_split_join (strVal d) MAX_DATABASE_STRING_SIZE (by rw [MAX_DATABASE_STRING_SIZE]; omega)
    hterm (strVal_ne_nil d) with ⟨ps, hps, hjoin, _, hlen, _⟩
  refine ⟨ps.enum.map (fun ic => ⟨ic.1, textToBinary ic.2⟩), ?_, ?_⟩
  · rw [saveDoc, saveMemoryChunks, hps]
    rfl
  · rw [dataGet, memText]
    have hmap : (ps.enum.map (fun ic => (⟨ic.1, textToBinary ic.2⟩ : ChunkEntry))).map
        (fun a => binaryToText a.data) = ps.map (fun c => binaryToText (textToBinary c)) := by
      rw [List.map_map]
      exact enum_snd_map ps (fun c => binaryToText (textToBinary c))
    rw [hmap]
    have hptw : ∀ c ∈ ps, binaryToText (textToBinary c) = c := by
      intro c hc
      apply binaryToText_textToBinary
      · have := hlen c hc
        intro hnil
        rw [hnil] at this
        simp at this
      · intro x hx
        apply hunits
        rw [← hjoin]
        exact List.mem_flatten.mpr ⟨c, hc, hx⟩
    have hdec : ps.map (fun c => binaryToText (textToBinary c)) = ps := by
      calc ps.map (fun c => binaryToText (textToBinary c)) = ps.map id :=
        List.map_congr_left hptw
      _ = ps := List.map_id ps
    rw [hdec, hjoin, parseJson_strVal d]

/-- Claim C1: FALSE as stated. The document `{"a":" "}` is JSON-serializable
and well within the size limit, but `JSON.stringify` leaves U+2028 raw while the
regex `.` of `chunkString` skips it, so the saved chunks drop the character and
the read-back document is `{"a":""}`. -/
theorem C1_counterexample :
    (saveDoc (Json.obj (.cons (s2u "a") (.str [8232]) .nil))).map dataGet
      = some (Json.obj (.cons (s2u "a") (.str []) .nil)) ∧
    decide (Json.obj (.cons (s2u "a") (.str []) .nil)
      = Json.obj (.cons (s2u "a") (.str [8232]) .nil)) = false := by
  exact ⟨by decide, by decide⟩

/-- Claim C1 (amended): for every document whose strings are UTF-16 code units
and avoid U+2028/U+2029, `save(d)` succeeds and the `data` read returns a
document structurally equal to `d` (no length bound is needed: chunking
handles any length). -/
theorem C1_round_trip (d : Json) (hwf : wfDoc d = true) (hsep : noSepDoc d = true) :
    ∃ mem, saveDoc d = some mem ∧ dataGet mem = d :=
  saveDoc_dataGet d hwf hsep

theorem C1_round_trip_witness :
    (wfDoc (Json.obj (.cons (s2u "a") (.num 1) .nil)) = true) ∧
    (noSepDoc (Json.obj (.cons (s2u "a") (.num 1) .nil)) = true) ∧
    ∃ mem, saveDoc (Json.obj (.cons (s2u "a") (.num 1) .nil)) = some mem ∧
      dataGet mem = Json.obj (.cons (s2u "a") (.num 1) .nil) :=
  ⟨by decide, by decide, C1_round_trip _ (by decide) (by decide)⟩

/-- Claim C5: the read path (`data` getter) is total — it either returns the
parsed document or the canonical empty document `{}`; no decode or parse error
escapes (the whole pipeline sits in a `try` whose `catch` returns `{}`, and
`binaryToText` itself never throws). -/
theorem C5_read_never_throws (mem : List ChunkEntry) :
    (∃ j, parseJson (memText mem) = .ok j ∧ dataGet mem = j) ∨ dataGet mem = Json.obj .nil := by
  cases h : parseJson (memText mem) with
  | ok j =>
    left
    exact ⟨j, rfl, by rw [dataGet, h]⟩
  | error e =>
    right
    rw [dataGet, h]

/-- Claim C6: FALSE as stated. On empty serialized text `chunkString` returns
`null` (no match), so `save` throws (`null.entries()`) instead of emitting the
encoded empty-object fallback chunk. -/
theorem C6_counterexample :
    saveMemoryChunks [] = none ∧
      decide (saveMemoryChunks []
        = some [(⟨0, textToBinary (s2u "{}")⟩ : ChunkEntry)]) = false := by
  exact ⟨rfl, by decide⟩

/-- Claim C6 (amended): if the serialized text is empty, `save` does NOT emit a
fallback chunk — `chunkString` yields `null` and the chunk loop throws (the
encoded `{}` fallback lives in `fetch`'s catch, on the read path).  The
situation is unreachable from `save(d)`: no document serializes to the empty
text. -/
theorem C6_empty_save_throws :
    saveMemoryChunks [] = none ∧ ∀ d : Json, 0 < (strVal d).length := by
  constructor
  · rfl
  · intro d
    exact List.length_pos.mpr (strVal_ne_nil d)

theorem all_replicate_of (n : Nat) (a : Nat) (p : Nat → Bool) (h : p a = true) :
    (List.replicate n a).all p = true := by
  induction n with
  | zero => rfl
  | succ n ih =>
    rw [List.replicate_succ]
    simp only [List.all_cons, h, ih, Bool.and_self]

theorem escChar_raw (c : Nat) (h32 : 32 ≤ c) (h34 : c ≠ 34) (h92 : c ≠ 92) :
    escChar c = [c] := by
  rw [escChar]
  rw [if_neg h34, if_neg h92, if_neg (by omega), if_neg (by omega), if_neg (by omega),
    if_neg (by omega), if_neg (by omega), if_neg (by omega)]

theorem escBody_all_raw (s : JSStr) (h : ∀ c ∈ s, 32 ≤ c ∧ c ≠ 34 ∧ c ≠ 92) :
    escBody s = s := by
  induction s with
  | nil => rfl
  | cons x s ih =>
    rw [escBody_cons]
    rcases h x (List.mem_cons_self x s) with ⟨h1, h2, h3⟩
    rw [escChar_raw x h1 h2 h3]
    rw [ih (fun c hc => h c (List.mem_cons_of_mem x hc))]
    rfl

/-- Serialization of the one-key document `{"a": "<n copies of unit c>"}` for
a raw (unescaped) unit `c`. -/
theorem strVal_objRep (n : Nat) (c : Nat) (h32 : 32 ≤ c) (h34 : c ≠ 34) (h92 : c ≠ 92) :
    strVal (Json.obj (.cons (s2u "a") (.str (List.replicate n c)) .nil))
      = [123, 34, 97, 34, 58, 34] ++ (List.replicate n c ++ [34, 125]) := by
  have hesc : escBody (List.replicate n c) = List.replicate n c := by
    apply escBody_all_raw
    intro x hx
    have := List.eq_of_mem_replicate hx
    subst this
    exact ⟨h32, h34, h92⟩
  rw [show strVal (Json.obj (.cons (s2u "a") (.str (List.replicate n c)) .nil))
        = 123 :: (strQuote (s2u "a")
            ++ (58 :: ((34 :: (escBody (List.replicate n c) ++ [34])) ++ ([] ++ [125]))))
      from rfl]
  rw [hesc]
  rw [show strQuote (s2u "a") = [34, 97, 34] from rfl]
  simp

/-- The 32000-character document used to refute claim C8. -/
def dC8 : Json := Json.obj (.cons (s2u "a") (.str (List.replicate 31992 8232)) .nil)

theorem strVal_dC8 :
    strVal dC8 = [123, 34, 97, 34, 58, 34] ++ (List.replicate 31992 8232 ++ [34, 125]) :=
  strVal_objRep 31992 8232 (by omega) (by omega) (by omega)

theorem chunks_dC8 :
    chunkMatchesFuel 32000 32000 (strVal dC8) = [[123, 34, 97, 34, 58, 34], [34, 125]] := by
  rw [strVal_dC8]
  rw [show List.replicate 31992 8232 ++ ([34, 125] : JSStr)
        = 8232 :: (List.replicate 31991 8232 ++ [34, 125]) from rfl]
  rw [show (32000 : Nat) = 31999 + 1 from rfl]
  rw [chunkMatchesFuel_piece (31999 + 1) 31999 8232 (List.replicate 31991 8232 ++ [34, 125])
    rfl [123, 34, 97, 34, 58, 34] (by simp) (by decide) (by norm_num)]
  rw [show (8232 : Nat) :: (List.replicate 31991 8232 ++ [34, 125])
        = List.replicate 31992 8232 ++ ([34, 125] : JSStr) from rfl]
  rw [chunkMatchesFuel_skip (31999 + 1) 8232 rfl 31992 31999 [34, 125] (by norm_num)]
  rw [show (31999 - 31992 : Nat) = 7 from rfl]
  rw [chunkMatchesFuel_noTerm 31999 7 [34, 125] (by decide) (by norm_num)]
  rw [chunksOf]
  rw [List.take_of_length_le (by norm_num), List.drop_eq_nil_of_le (by norm_num)]
  simp [chunksOf]

/-- Claim C8: FALSE as stated. `dC8` (`{"a":"<31992 × U+2028>"}`) serializes
to exactly 32000 characters, yet `save` produces 2 chunks, not 1: the regex
`.{1,32000}` cannot match the U+2028 characters, so the matcher emits the text
before them and the text after them as separate pieces (silently dropping the
separators). -/
theorem C8_counterexample :
    (strVal dC8).length = 32000 ∧
      (chunkString (strVal dC8) 32000).map List.length = some 2 := by
  have hlen32 : (strVal dC8).length = 32000 := by
    rw [strVal_dC8, List.length_append, List.length_append, List.length_replicate]
    rfl
  constructor
  · exact hlen32
  · rw [chunkString]
    rw [if_neg (by norm_num)]
    simp only [hlen32, chunks_dC8]
    rw [if_neg (by simp)]
    rfl

/-- Claim C8 (amended): restricted to documents whose strings avoid raw
U+2028/U+2029 (so the serialized text contains no line terminator), the chunk
boundary behaves as stated: exactly 32000 serialized characters give 1 chunk;
32001 give 2 chunks whose second has length 1. -/
theorem C8_chunk_boundary (d e : Json) (hd : noSepDoc d = true) (he : noSepDoc e = true)
    (hld : (strVal d).length = 32000) (hle : (strVal e).length = 32001) :
    chunkString (strVal d) 32000 = some [strVal d] ∧
      chunkString (strVal e) 32000 = some [(strVal e).take 32000, (strVal e).drop 32000] ∧
      ((strVal e).drop 32000).length = 1 := by
  have hne_d := strVal_ne_nil d
  have hne_e := strVal_ne_nil e
  have hterm_d := strVal_noTerm d hd
  have hterm_e := strVal_noTerm e he
  have hcs_d : chunkString (strVal d) 32000 = some (chunksOf 31999 (strVal d)) := by
    rw [chunkString, if_neg (by norm_num)]
    rw [show (32000 : Nat) = 31999 + 1 from rfl]
    rw [chunkMatchesFuel_noTerm 31999 (strVal d).length (strVal d) hterm_d (Nat.le_refl _)]
    rw [if_neg (chunksOf_ne_nil 31999 (strVal d) hne_d)]
  have hcs_e : chunkString (strVal e) 32000 = some (chunksOf 31999 (strVal e)) := by
    rw [chunkString, if_neg (by norm_num)]
    rw [show (32000 : Nat) = 31999 + 1 from rfl]
    rw [chunkMatchesFuel_noTerm 31999 (strVal e).length (strVal e) hterm_e (Nat.le_refl _)]
    rw [if_neg (chunksOf_ne_nil 31999 (strVal e) hne_e)]
  rcases chunksOf_len_one_more 31999 (strVal e) (by omega) with ⟨he2, he3⟩
  refine ⟨?_, ?_, ?_⟩
  · rw [hcs_d, chunksOf_len_exact 31999 (strVal d) (by omega)]
  · rw [hcs_e, he2]
  · exact he3

theorem C8_chunk_boundary_witness :
    (noSepDoc (Json.obj (.cons (s2u "a") (.str (List.replicate 31992 97)) .nil)) = true) ∧
    (noSepDoc (Json.obj (.cons (s2u "a") (.str (List.replicate 31993 97)) .nil)) = true) ∧
    ((strVal (Json.obj (.cons (s2u "a") (.str (List.replicate 31992 97)) .nil))).length
       = 32000) ∧
    ((strVal (Json.obj (.cons (s2u "a") (.str (List.replicate 31993 97)) .nil))).length
       = 32001) ∧
    chunkString (strVal (Json.obj (.cons (s2u "a") (.str (List.replicate 31992 97)) .nil)))
      32000 = some [strVal (Json.obj (.cons (s2u "a") (.str (List.replicate 31992 97)) .nil))] := by
  have h1 : noSepDoc (Json.obj (.cons (s2u "a") (.str (List.replicate 31992 97)) .nil)) = true := by
    rw [noSepDoc, noSepMembs]
    simp [-List.reduceReplicate, noSepDoc, noSepMembs, all_replicate_of]
    decide
  have h2 : noSepDoc (Json.obj (.cons (s2u "a") (.str (List.replicate 31993 97)) .nil)) = true := by
    rw [noSepDoc, noSepMembs]
    simp [-List.reduceReplicate, noSepDoc, noSepMembs, all_replicate_of]
    decide
  have h3 : (strVal (Json.obj (.cons (s2u "a") (.str (List.replicate 31992 97)) .nil))).length
      = 32000 := by
    rw [strVal_objRep 31992 97 (by omega) (by omega) (by omega)]
    rw [List.length_append, List.length_append, List.length_replicate]
    rfl
  have h4 : (strVal (Json.obj (.cons (s2u "a") (.str (List.replicate 31993 97)) .nil))).length
      = 32001 := by
    rw [strVal_objRep 31993 97 (by omega) (by omega) (by omega)]
    rw [List.length_append, List.length_append, List.length_replicate]
    rfl
  exact ⟨h1, h2, h3, h4,
    (C8_chunk_boundary _ _ h1 h2 h3 h4).1⟩

/-!
Document-level operations of the `Database` class: `get`, `set`, `has`,
`delete` (lines 171–201).  All act on `this.data` (the parsed cache) and then
`save`.  api.js is an ES module, hence strict mode: `delete` on a
non-configurable property and assignment to a property of a primitive throw
`TypeError` (modelled as `none`); `delete` otherwise returns `true` — also for
absent keys, which is what refutes claim C4.
-/

/-- The `"length"` property name. -/
def strLengthKey : JSStr := s2u "length"

/-- A canonical array-index string: the decimal rendering of its value. -/
def canonIndex (k : JSStr) : Option Nat :=
  if k = natDec (valDigits 10 k) then some (valDigits 10 k) else none

def jlistLength : JsonList → Nat
  | .nil => 0
  | .cons _ t => 1 + jlistLength t

/-- Deleting element `i` leaves a hole, which `JSON.stringify` renders `null`. -/
def jlistSetNull : Nat → JsonList → JsonList
  | _, .nil => .nil
  | 0, .cons _ t => .cons .null t
  | n + 1, .cons h t => .cons h (jlistSetNull n t)

/-- `arr[i] = v`, extending with holes (rendered `null`) when `i` is past the
end. -/
def jlistSetPad : Nat → Json → JsonList → JsonList
  | 0, v, .nil => .cons v .nil
  | 0, v, .cons _ t => .cons v t
  | n + 1, v, .nil => .cons .null (jlistSetPad n v .nil)
  | n + 1, v, .cons h t => .cons h (jlistSetPad n v t)

/-- `arr.length = n`: truncate or extend with holes. -/
def jlistResize : Nat → JsonList → JsonList
  | 0, _ => .nil
  | n + 1, .nil => .cons .null (jlistResize n .nil)
  | n + 1, .cons h t => .cons h (jlistResize n t)

def membsRemove (k : JSStr) : JsonMembers → JsonMembers
  | .nil => .nil
  | .cons k2 v t => if k2 = k then membsRemove k t else .cons k2 v (membsRemove k t)

def membsSet (k : JSStr) (v : Json) : JsonMembers → JsonMembers
  | .nil => .cons k v .nil
  | .cons k2 v2 t => if k2 = k then .cons k2 v t else .cons k2 v2 (membsSet k v t)

def membsLookup (k : JSStr) : JsonMembers → Option Json
  | .nil => none
  | .cons k2 v t => if k2 = k then some v else membsLookup k t

def membsHasKey (k : JSStr) : JsonMembers → Bool
  | .nil => false
  | .cons k2 _ t => k2 == k || membsHasKey k t

def jlistGet : Nat → JsonList → Option Json
  | _, .nil => none
  | 0, .cons h _ => some h
  | n + 1, .cons _ t => jlistGet n t

/-- What strict-mode `delete json[key]` returns: `none` models a thrown
`TypeError` (`null` base, or a non-configurable property: string indices and
`length`); otherwise `true` — regardless of whether the key was present. -/
def deleteStatus : Json → JSStr → Option Bool
  | .null, _ => none
  | .str s, k =>
    if k = strLengthKey then none
    else
      match canonIndex k with
      | some i => if i < s.length then none else some true
      | none => some true
  | .arr _, k => if k = strLengthKey then none else some true
  | _, _ => some true

/-- The mutation `delete json[key]` performs on the parsed document. -/
def docDelete (k : JSStr) : Json → Json
  | .obj kvs => .obj (membsRemove k kvs)
  | .arr xs =>
    match canonIndex k with
    | some i => if i < jlistLength xs then .arr (jlistSetNull i xs) else .arr xs
    | none => .arr xs
  | j => j

/-- `Database.delete(key)` (lines 196–201): read `this.data`, `delete
json[key]`, `save(json)`, return the delete operator's result. `none` models
a throw (of the delete itself, or of `save` on empty chunk output). -/
def deleteOp (mem : List ChunkEntry) (k : JSStr) : Option (List ChunkEntry × Bool) :=
  match deleteStatus (dataGet mem) k with
  | none => none
  | some st =>
    match saveMemoryChunks (strVal (docDelete k (dataGet mem))) with
    | none => none
    | some mem2 => some (mem2, st)

/-- `has(key)` for the current document (`keys().includes(key)`). -/
def docHasKey (j : Json) (k : JSStr) : Bool :=
  match j with
  | .obj kvs => membsHasKey k kvs
  | _ => false

/-- The mutation `json[key] = v`; `none` models a strict-mode `TypeError`
(primitive or null base) or an invalid array-length assignment. -/
def docSet (k : JSStr) (v : Json) : Json → Option Json
  | .obj kvs => some (.obj (membsSet k v kvs))
  | .arr xs =>
    if k = strLengthKey then
      match v with
      | .num (.ofNat n) => some (.arr (jlistResize n xs))
      | _ => none
    else
      match canonIndex k with
      | some i => some (.arr (jlistSetPad i v xs))
      | none => some (.arr xs)
  | _ => none

/-- `Database.set(key, value)` (lines 176–180). -/
def setOp (mem : List ChunkEntry) (k : JSStr) (v : Json) : Option (List ChunkEntry) :=
  match docSet k v (dataGet mem) with
  | none => none
  | some d2 => saveMemoryChunks (strVal d2)

/-- `json[key]` as `Database.get` uses it; outer `none` models a throw
(`null` base), inner `none` is JavaScript `undefined`. -/
def docGet : Json → JSStr → Option (Option Json)
  | .null, _ => none
  | .obj kvs, k => some (membsLookup k kvs)
  | .arr xs, k =>
    if k = strLengthKey then some (some (.num (jlistLength xs)))
    else
      match canonIndex k with
      | some i => some (jlistGet i xs)
      | none => some none
  | .str s, k =>
    if k = strLengthKey then some (some (.num s.length))
    else
      match canonIndex k with
      | some i => some ((s.drop i).head?.map (fun c => Json.str [c]))
      | none => some none
  | _, _ => some none

/-- `Database.get(key)` (lines 171–174). -/
def getOp (mem : List ChunkEntry) (k : JSStr) : Option (Option Json) :=
  docGet (dataGet mem) k

theorem wfMembs_membsRemove : ∀ (k : JSStr) (kvs : JsonMembers), wfMembs kvs = true →
    wfMembs (membsRemove k kvs) = true
  | _, .nil, _ => rfl
  | k, .cons k2 v t, h => by
    rw [wfMembs, Bool.and_eq_true, Bool.and_eq_true] at h
    rw [membsRemove]
    by_cases hk : k2 = k
    · rw [if_pos hk]
      exact wfMembs_membsRemove k t h.2
    · rw [if_neg hk, wfMembs, Bool.and_eq_true, Bool.and_eq_true]
      exact ⟨h.1, wfMembs_membsRemove k t h.2⟩

theorem noSepMembs_membsRemove : ∀ (k : JSStr) (kvs : JsonMembers), noSepMembs kvs = true →
    noSepMembs (membsRemove k kvs) = true
  | _, .nil, _ => rfl
  | k, .cons k2 v t, h => by
    rw [noSepMembs, Bool.and_eq_true, Bool.and_eq_true] at h
    rw [membsRemove]
    by_cases hk : k2 = k
    · rw [if_pos hk]
      exact noSepMembs_membsRemove k t h.2
    · rw [if_neg hk, noSepMembs, Bool.and_eq_true, Bool.and_eq_true]
      exact ⟨h.1, noSepMembs_membsRemove k t h.2⟩

theorem wfMembs_membsSet : ∀ (k : JSStr) (v : Json) (kvs : JsonMembers),
    wfMembs kvs = true → k.all (fun c => decide (c < 65536)) = true → wfDoc v = true →
      wfMembs (membsSet k v kvs) = true
  | k, v, .nil, _, hk, hv => by
    rw [membsSet, wfMembs, wfMembs]
    rw [hk, hv]
    rfl
  | k, v, .cons k2 v2 t, h, hk, hv => by
    rw [wfMembs, Bool.and_eq_true, Bool.and_eq_true] at h
    rw [membsSet]
    by_cases hkk : k2 = k
    · rw [if_pos hkk, wfMembs, Bool.and_eq_true, Bool.and_eq_true]
      exact ⟨⟨h.1.1, hv⟩, h.2⟩
    · rw [if_neg hkk, wfMembs, Bool.and_eq_true, Bool.and_eq_true]
      exact ⟨h.1, wfMembs_membsSet k v t h.2 hk hv⟩

theorem noSepMembs_membsSet : ∀ (k : JSStr) (v : Json) (kvs : JsonMembers),
    noSepMembs kvs = true → k.all (fun c => !(c == 8232 || c == 8233)) = true →
      noSepDoc v = true → noSepMembs (membsSet k v kvs) = true
  | k, v, .nil, _, hk, hv => by
    rw [membsSet, noSepMembs, noSepMembs]
    rw [hk, hv]
    rfl
  | k, v, .cons k2 v2 t, h, hk, hv => by
    rw [noSepMembs, Bool.and_eq_true, Bool.and_eq_true] at h
    rw [membsSet]
    by_cases hkk : k2 = k
    · rw [if_pos hkk, noSepMembs, Bool.and_eq_true, Bool.and_eq_true]
      exact ⟨⟨h.1.1, hv⟩, h.2⟩
    · rw [if_neg hkk, noSepMembs, Bool.and_eq_true, Bool.and_eq_true]
      exact ⟨h.1, noSepMembs_membsSet k v t h.2 hk hv⟩

/-- `set` of one key does not change the mapping of any other key. -/
theorem membsLookup_membsSet : ∀ (k k2 : JSStr) (v : Json) (kvs : JsonMembers), k2 ≠ k →
    membsLookup k2 (membsSet k v kvs) = membsLookup k2 kvs
  | k, k2, v, .nil, hkk => by
    rw [membsSet, membsLookup, membsLookup]
    rw [if_neg (fun hc => hkk hc.symm)]
    rfl
  | k, k2, v, .cons k2cur v2 t, hkk => by
    rw [membsSet]
    by_cases hcur : k2cur = k
    · rw [if_pos hcur, membsLookup, membsLookup]
      rw [if_neg (by rw [hcur]; exact fun hc => hkk hc.symm)]
      rw [if_neg (by rw [hcur]; exact fun hc => hkk hc.symm)]
    · rw [if_neg hcur, membsLookup, membsLookup]
      by_cases h2 : k2cur = k2
      · rw [if_pos h2, if_pos h2]
      · rw [if_neg h2, if_neg h2]
        exact membsLookup_membsSet k k2 v t hkk

/-- Claim C4: FALSE as stated. On the empty document, `"a"` is not present,
yet `delete("a")` returns `true`: the strict-mode `delete` operator returns
`true` for any configurable-or-absent property, so presence is not reflected
in the return value (a second delete also returns `true`, not `false`). -/
theorem C4_counterexample :
    docHasKey (dataGet [(⟨0, textToBinary (s2u "{}")⟩ : ChunkEntry)]) (s2u "a") = false ∧
      (deleteOp [(⟨0, textToBinary (s2u "{}")⟩ : ChunkEntry)] (s2u "a")).map Prod.snd
        = some true := by
  exact ⟨by decide, by decide⟩

/-- Claim C4 (amended): for object documents, `delete(key)` removes the key
from the document and saves, but ALWAYS returns `true`, whether or not the
key was present. -/
theorem C4_delete_always_true (mem : List ChunkEntry) (k : JSStr) (kvs : JsonMembers)
    (hd : dataGet mem = .obj kvs) (hwf : wfDoc (Json.obj kvs) = true)
    (hsep : noSepDoc (Json.obj kvs) = true) :
    ∃ mem2, deleteOp mem k = some (mem2, true) ∧
      dataGet mem2 = Json.obj (membsRemove k kvs) := by
  have hwf2 : wfDoc (Json.obj (membsRemove k kvs)) = true := by
    rw [wfDoc]
    rw [wfDoc] at hwf
    exact wfMembs_membsRemove k kvs hwf
  have hsep2 : noSepDoc (Json.obj (membsRemove k kvs)) = true := by
    rw [noSepDoc]
    rw [noSepDoc] at hsep
    exact noSepMembs_membsRemove k kvs hsep
  rcases saveDoc_dataGet (Json.obj (membsRemove k kvs)) hwf2 hsep2 with ⟨mem2, hsave, hdata⟩
  refine ⟨mem2, ?_, hdata⟩
  rw [deleteOp, hd]
  show (match saveMemoryChunks (strVal (Json.obj (membsRemove k kvs))) with
    | none => none
    | some m2 => some (m2, true)) = some (mem2, true)
  rw [show saveMemoryChunks (strVal (Json.obj (membsRemove k kvs))) = some mem2 from hsave]

theorem C4_delete_always_true_witness :
    (dataGet [(⟨0, textToBinary (strVal (Json.obj (.cons (s2u "a") (.num 1) .nil)))⟩ : ChunkEntry)]
        = Json.obj (.cons (s2u "a") (.num 1) .nil)) ∧
    (wfDoc (Json.obj (.cons (s2u "a") (.num 1) .nil)) = true) ∧
    (noSepDoc (Json.obj (.cons (s2u "a") (.num 1) .nil)) = true) ∧
    ∃ mem2, deleteOp [(⟨0, textToBinary (strVal (Json.obj (.cons (s2u "a") (.num 1) .nil)))⟩ : ChunkEntry)] (s2u "a")
        = some (mem2, true) ∧
      dataGet mem2 = Json.obj (membsRemove (s2u "a") (.cons (s2u "a") (.num 1) .nil)) :=
  ⟨by decide, by decide, by decide,
    C4_delete_always_true _ (s2u "a") _ (by decide) (by decide) (by decide)⟩

/-- Claim C10: FALSE as stated. The current document `{"b":" "}` is an
ordinary JSON object, but `set("a", 1)` re-serializes and re-chunks the whole
document, and the chunk regex drops the raw U+2028 of the OTHER key's value:
afterwards `get("b")` returns `""` instead of `" "`. -/
theorem C10_counterexample :
    getOp [(⟨0, textToBinary (strVal (Json.obj (.cons (s2u "b") (.str [8232]) .nil)))⟩ :
        ChunkEntry)] (s2u "b") = some (some (.str [8232])) ∧
    (setOp [(⟨0, textToBinary (strVal (Json.obj (.cons (s2u "b") (.str [8232]) .nil)))⟩ :
        ChunkEntry)] (s2u "a") (.num 1)).map (fun m2 => getOp m2 (s2u "b"))
      = some (some (some (.str []))) ∧
    decide ((Json.str [] : Json) = .str [8232]) = false := by
  exact ⟨by decide, by decide, by decide⟩

/-- Claim C10 (amended): for states whose document is an object with UTF-16
strings avoiding U+2028/U+2029, and a new key/value likewise, `set(k, v)`
leaves `get(k2)` unchanged for every other key `k2`. -/
theorem C10_set_frame (mem : List ChunkEntry) (k k2 : JSStr) (v : Json) (kvs : JsonMembers)
    (hd : dataGet mem = .obj kvs) (hwf : wfDoc (Json.obj kvs) = true)
    (hsep : noSepDoc (Json.obj kvs) = true)
    (hkwf : k.all (fun c => decide (c < 65536)) = true)
    (hksep : k.all (fun c => !(c == 8232 || c == 8233)) = true)
    (hvwf : wfDoc v = true) (hvsep : noSepDoc v = true) (hkk : k2 ≠ k) :
    ∃ mem2, setOp mem k v = some mem2 ∧ getOp mem2 k2 = getOp mem k2 := by
  have hwf2 : wfDoc (Json.obj (membsSet k v kvs)) = true := by
    rw [wfDoc]
    rw [wfDoc] at hwf
    exact wfMembs_membsSet k v kvs hwf hkwf hvwf
  have hsep2 : noSepDoc (Json.obj (membsSet k v kvs)) = true := by
    rw [noSepDoc]
    rw [noSepDoc] at hsep
    exact noSepMembs_membsSet k v kvs hsep hksep hvsep
  rcases saveDoc_dataGet (Json.obj (membsSet k v kvs)) hwf2 hsep2 with ⟨mem2, hsave, hdata⟩
  refine ⟨mem2, ?_, ?_⟩
  · rw [setOp, hd]
    show saveMemoryChunks (strVal (Json.obj (membsSet k v kvs))) = some mem2
    exact hsave
  · rw [getOp, getOp, hdata, hd]
    show some (membsLookup k2 (membsSet k v kvs)) = some (membsLookup k2 kvs)
    rw [membsLookup_membsSet k k2 v kvs hkk]

theorem C10_set_frame_witness :
    (dataGet [(⟨0, textToBinary (strVal (Json.obj (.cons (s2u "b") (.num 2) .nil)))⟩ : ChunkEntry)]
        = Json.obj (.cons (s2u "b") (.num 2) .nil)) ∧
    (s2u "b" ≠ s2u "a") ∧
    ∃ mem2, setOp [(⟨0, textToBinary (strVal (Json.obj (.cons (s2u "b") (.num 2) .nil)))⟩ : ChunkEntry)] (s2u "a") (.num 1)
        = some mem2 ∧
      getOp mem2 (s2u "b")
        = getOp [(⟨0, textToBinary (strVal (Json.obj (.cons (s2u "b") (.num 2) .nil)))⟩ : ChunkEntry)] (s2u "b") :=
  ⟨by decide, by decide,
    C10_set_frame _ (s2u "a") (s2u "b") (.num 1) (.cons (s2u "b") (.num 2) .nil)
      (by decide) (by decide) (by decide) (by decide) (by decide) (by decide) (by decide)
      (by decide)⟩

/-!
The backing scoreboard (claims C7, C9).  A world holds a list of objectives,
each a name with a list of `(fake player name, score)` entries, modelling the
commands api.js issues:

* `scoreboard objectives add <n> dummy` — create if absent (failure caught);
* `scoreboard objectives remove <n>` — drop if present (failure caught);
* `scoreboard players set "<e>" <obj> v` / `players add` — write an entry
  (failure caught when issued through `runCommand`; the `SAVE_NAMES` setter
  issues its `players set` directly, so a missing coordination table would
  throw — modelled as `none`, and proven unreachable inside `save`);
* `scoreboard players test "DB_SAVE" "<T>" * *` — the `SAVE_NAMES` getter,
  `0` on error;
* `scoreboard players list` — the blob `fetch` pattern-matches.  We model the
  extraction at entry granularity: a regex match `(?<=name\()[01\s]+(?=\))`
  succeeds on exactly the entry names this store writes
  (`name(<binary payload>)`), which is faithful for every entry the store
  itself produces; `fetch` treats any failure by resetting the whole cache to
  the encoded `{}` fallback.
-/

structure Objv where
  name : JSStr
  entries : List (JSStr × Int)
deriving DecidableEq

structure World where
  objs : List Objv
deriving DecidableEq

def findObj (w : World) (n : JSStr) : Option Objv :=
  w.objs.find? (fun o => o.name == n)

def objAdd (w : World) (n : JSStr) : World :=
  if (findObj w n).isSome then w else ⟨w.objs ++ [⟨n, []⟩]⟩

def objRemove (w : World) (n : JSStr) : World :=
  ⟨w.objs.filter (fun o => !(o.name == n))⟩

def entriesSet (es : List (JSStr × Int)) (en : JSStr) (v : Int) : List (JSStr × Int) :=
  if es.any (fun e => e.1 == en) then es.map (fun e => if e.1 == en then (en, v) else e)
  else es ++ [(en, v)]

def entriesAdd (es : List (JSStr × Int)) (en : JSStr) (v : Int) : List (JSStr × Int) :=
  if es.any (fun e => e.1 == en) then es.map (fun e => if e.1 == en then (e.1, e.2 + v) else e)
  else es ++ [(en, v)]

def objsUpdate (w : World) (n : JSStr)
    (f : List (JSStr × Int) → List (JSStr × Int)) : World :=
  ⟨w.objs.map (fun o => if o.name == n then ⟨o.name, f o.entries⟩ else o)⟩

/-- `players set` through `runCommand`: no-op when the objective is missing. -/
def playersSet (w : World) (n en : JSStr) (v : Int) : World :=
  if (findObj w n).isSome then objsUpdate w n (fun es => entriesSet es en v) else w

/-- `players add` through `runCommand`: no-op when the objective is missing. -/
def playersAdd (w : World) (n en : JSStr) (v : Int) : World :=
  if (findObj w n).isSome then objsUpdate w n (fun es => entriesAdd es en v) else w

/-- The `SAVE_NAMES` setter issues its command directly (uncaught): `none`
models the throw when the coordination table is missing. -/
def saveNamesSetRaw (w : World) (T : JSStr) (v : Int) : Option World :=
  if (findObj w T).isSome then
    some (objsUpdate w T (fun es => entriesSet es (s2u "DB_SAVE") v))
  else none

def findEntry (w : World) (T en : JSStr) : Option Int :=
  (findObj w T).bind (fun o => (o.entries.find? (fun e => e.1 == en)).map (fun e => e.2))

/-- The `SAVE_NAMES` getter (`players test`, `0` on any failure). -/
def saveNamesGet (w : World) (T : JSStr) : Int :=
  (findEntry w T (s2u "DB_SAVE")).getD 0

/-- The per-chunk table name `DB_${TABLE_NAME}_${index}`. -/
def dbName (T : JSStr) (i : Nat) : JSStr :=
  (s2u "DB_" ++ T ++ s2u "_") ++ natDec i

/-- The indices `0 ≤ i ≤ count` a `for (let i = 0; i <= count; i++)` loop
visits (none when the count is negative). -/
def countIdx (c : Int) : List Nat :=
  if c < 0 then [] else List.range (c.toNat + 1)

/-- `build()` (lines 95–98): ensure the coordination table and its `DB_SAVE`
baseline entry exist. -/
def buildWorld (w : World) (T : JSStr) : World :=
  playersAdd (objAdd w T) T (s2u "DB_SAVE") 0

/-- `wipe()` (lines 100–108): drop every chunk table up to the recorded
count, drop the coordination table, rebuild it. -/
def wipeWorld (w : World) (T : JSStr) : World :=
  buildWorld
    (objRemove ((countIdx (saveNamesGet w T)).foldl (fun wa i => objRemove wa (dbName T i)) w) T)
    T

/-- The entry name `save` writes: `${name}(${encoded chunk})`. -/
def entryName (name data : JSStr) : JSStr := name ++ (40 :: (data ++ [41]))

/-- One iteration of `save`'s chunk loop (lines 158–168): record the index in
`SAVE_NAMES`, create the chunk table, write the payload-carrying entry. -/
def saveStep (T : JSStr) (ow : Option World) (ic : Nat × JSStr) : Option World :=
  match ow with
  | none => none
  | some w =>
    match saveNamesSetRaw w T (ic.1 : Int) with
    | none => none
    | some w1 =>
      some (playersSet (objAdd w1 (dbName T ic.1)) (dbName T ic.1)
        (entryName (dbName T ic.1) (textToBinary ic.2)) 0)

/-- The world effect of `save` given the chunk list. -/
def saveWorldChunks (w : World) (T : JSStr) (chunks : List JSStr) : Option World :=
  chunks.enum.foldl (saveStep T) (some (wipeWorld w T))

/-- The world effect of `save(d)`: split first (throwing on `null`), then
wipe and write. -/
def saveWorldDoc (w : World) (T : JSStr) (d : Json) : Option World :=
  match chunkString (strVal d) MAX_DATABASE_STRING_SIZE with
  | none => none
  | some cs => saveWorldChunks w T cs

/-- The characters the capture group `[0-1\s]+` accepts. -/
def isBinWsChar (c : Nat) : Bool := isBinDigitChar c || isWsJs c

/-- Extraction of the payload from one entry name: the name must be
`pat(<nonempty binary/whitespace run>)`. -/
def entryPayload (pat entry : JSStr) : Option JSStr :=
  if entry.take (pat.length + 1) = pat ++ [40] then
    match (entry.drop (pat.length + 1)).getLast? with
    | some 41 =>
      let mid := (entry.drop (pat.length + 1)).dropLast
      if mid ≠ [] ∧ mid.all isBinWsChar then some mid else none
    | _ => none
  else none

/-- The regex lookup over the `players list` blob: the first matching entry
in listing order. -/
def findPayload (w : World) (pat : JSStr) : Option JSStr :=
  w.objs.findSome? (fun o => o.entries.findSome? (fun e => entryPayload pat e.1))

/-- The cache `fetch`'s catch installs: index 0 with the encoded `{}`. -/
def FALLBACK_MEM : List ChunkEntry := [⟨0, s2u "01111011 01111101"⟩]

/-- The chunk-collecting loop of `fetch` (lines 82–93); `none` models the
`TypeError` of `.match(...)[0]` on a failed match. -/
def fetchGo (w : World) (T : JSStr) : List Nat → Option (List ChunkEntry)
  | [] => some []
  | i :: is =>
    match findPayload w (dbName T i) with
    | none => none
    | some p => (fetchGo w T is).map (fun rest => ⟨i, p⟩ :: rest)

/-- `fetch()`: collect every chunk up to the recorded count, resetting the
whole cache to the encoded `{}` on any failure. -/
def fetchMemory (w : World) (T : JSStr) : List ChunkEntry :=
  match fetchGo w T (countIdx (saveNamesGet w T)) with
  | some mem => mem
  | none => FALLBACK_MEM

/-- A chunk table for `T` exists. -/
def hasChunkTable (w : World) (T : JSStr) (i : Nat) : Bool :=
  (findObj w (dbName T i)).isSome

/-- The chunk-count invariant: every existing chunk table's index is bounded
by the recorded count (what `wipe` relies on to remove them all). -/
def chunkInv (w : World) (T : JSStr) : Prop :=
  ∀ i : Nat, hasChunkTable w T i = true → (i : Int) ≤ saveNamesGet w T

/-- A world with no entry that the chunk-extraction regex for `T` could
match (in particular any freshly created world). -/
def cleanFor (T : JSStr) (w : World) : Prop :=
  ∀ o ∈ w.objs, ∀ e ∈ o.entries, ∀ i : Nat, entryPayload (dbName T i) e.1 = none

theorem natDec_inj {i j : Nat} (h : natDec i = natDec j) : i = j := by
  have hi := valDigits_toStringBase 8 i
  have hj := valDigits_toStringBase 8 j
  rw [natDec, natDec] at h
  rw [← hi, ← hj, h]

theorem natDec_digit_ge {c : Nat} {n : Nat} (hc : c ∈ natDec n) : 48 ≤ c :=
  (toStringBase_all 8 n c hc).1

theorem dbName_length (T : JSStr) (i : Nat) :
    (dbName T i).length = T.length + 4 + (natDec i).length := by
  rw [dbName]
  simp [s2u, List.length_append]
  omega

theorem dbName_ne_T (T : JSStr) (i : Nat) : dbName T i ≠ T := by
  intro h
  have hl := congrArg List.length h
  rw [dbName_length] at hl
  have := toStringBase_ne_nil 8 i
  rw [natDec] at *
  cases hne : toStringBase 8 i with
  | nil => exact this hne
  | cons c cs => rw [hne] at hl; simp at hl; omega

theorem dbName_inj {T : JSStr} {i j : Nat} (h : dbName T i = dbName T j) : i = j := by
  rw [dbName, dbName] at h
  exact natDec_inj (List.append_cancel_left h)

theorem entryPayload_DBSAVE (pat : JSStr) : entryPayload pat (s2u "DB_SAVE") = none := by
  rw [entryPayload, if_neg]
  intro h
  have h40 : (40 : Nat) ∈ (s2u "DB_SAVE").take (pat.length + 1) := by
    rw [h]
    exact List.mem_append_right _ (List.mem_singleton.mpr rfl)
  have h40' : (40 : Nat) ∈ s2u "DB_SAVE" := List.take_subset _ _ h40
  exact absurd h40' (by decide)

theorem natDec_take_eq {i j : Nat} (rest : JSStr)
    (h : (natDec i ++ (40 :: rest)).take ((natDec j).length + 1) = natDec j ++ [40]) :
    i = j := by
  rcases lt_trichotomy (natDec j).length (natDec i).length with hlt | heq | hgt
  · rw [List.take_append_of_le_length (by omega)] at h
    have h40 : (40 : Nat) ∈ (natDec i).take ((natDec j).length + 1) := by
      rw [h]
      exact List.mem_append_right _ (List.mem_singleton.mpr rfl)
    have h40' : (40 : Nat) ∈ natDec i := List.take_subset _ _ h40
    have := natDec_digit_ge h40'
    omega
  · rw [heq, List.take_append_eq_append_take,
      List.take_of_length_le (by omega), Nat.add_sub_cancel_left] at h
    have h' : natDec i ++ [40] = natDec j ++ [40] := by
      simpa using h
    exact natDec_inj (List.append_cancel_right h')
  · have hcongr := congrArg (fun l => l[(natDec i).length]?) h
    simp only at hcongr
    rw [List.getElem?_take_of_lt (by omega),
      List.getElem?_append_right (Nat.le_refl _), Nat.sub_self] at hcongr
    rw [List.getElem?_append_left hgt] at hcongr
    match hmem : (natDec j)[(natDec i).length]? with
    | none =>
      rw [hmem] at hcongr
      exact absurd hcongr (by simp)
    | some c =>
      rw [hmem] at hcongr
      have hc : c ∈ natDec j := List.getElem?_mem hmem
      have := natDec_digit_ge hc
      simp at hcongr
      omega

theorem take_pre_cancel (pre a x b : JSStr)
    (h : ((pre ++ a) ++ x).take ((pre ++ b).length + 1) = (pre ++ b) ++ [40]) :
    (a ++ x).take (b.length + 1) = b ++ [40] := by
  rw [List.append_assoc pre a x, List.length_append, Nat.add_assoc,
    List.take_append_eq_append_take, List.take_of_length_le (by omega),
    Nat.add_sub_cancel_left, List.append_assoc pre b [40]] at h
  exact List.append_cancel_left h

theorem entryPayload_entryName {T : JSStr} {i j : Nat} (data : JSStr) (hij : i ≠ j) :
    entryPayload (dbName T j) (entryName (dbName T i) data) = none := by
  rw [entryPayload, if_neg]
  intro h
  rw [entryName, dbName, dbName] at h
  exact hij (natDec_take_eq (data ++ [41])
    (take_pre_cancel (s2u "DB_" ++ T ++ s2u "_") (natDec i) (40 :: (data ++ [41]))
      (natDec j) h))


theorem beq_name_true {a b : JSStr} (h : a = b) : (a == b) = true := by
  simp [h]

theorem beq_name_false {a b : JSStr} (h : a ≠ b) : (a == b) = false := by
  simp [h]

theorem find?_filter_ne (n : JSStr) : ∀ (l : List Objv),
    (l.filter (fun o => !(o.name == n))).find? (fun o => o.name == n) = none
  | [] => rfl
  | o :: os => by
    by_cases h : o.name = n
    · rw [List.filter_cons]
      rw [beq_name_true h, Bool.not_true, if_neg (by simp)]
      exact find?_filter_ne n os
    · rw [List.filter_cons]
      rw [beq_name_false h, Bool.not_false, if_pos rfl]
      rw [List.find?_cons, beq_name_false h]
      exact find?_filter_ne n os

theorem findObj_objRemove_self (w : World) (n : JSStr) :
    findObj (objRemove w n) n = none :=
  find?_filter_ne n w.objs

theorem find?_filter_other {n x : JSStr} (hx : x ≠ n) : ∀ (l : List Objv),
    (l.filter (fun o => !(o.name == n))).find? (fun o => o.name == x) =
      l.find? (fun o => o.name == x)
  | [] => rfl
  | o :: os => by
    by_cases h : o.name = n
    · rw [List.filter_cons, beq_name_true h, Bool.not_true, if_neg (by simp)]
      rw [find?_filter_other hx os]
      rw [List.find?_cons, beq_name_false (fun he => hx (he.symm.trans h))]
    · rw [List.filter_cons, beq_name_false h, Bool.not_false, if_pos rfl]
      rw [List.find?_cons, List.find?_cons]
      by_cases h2 : o.name = x
      · rw [beq_name_true h2]
      · rw [beq_name_false h2]
        exact find?_filter_other hx os

theorem findObj_objRemove_other {x n : JSStr} (w : World) (hx : x ≠ n) :
    findObj (objRemove w n) x = findObj w x :=
  find?_filter_other hx w.objs

theorem findObj_objRemove_none {x : JSStr} (w : World) (n : JSStr)
    (h : findObj w x = none) : findObj (objRemove w n) x = none := by
  by_cases hx : x = n
  · rw [hx]; exact findObj_objRemove_self w n
  · rw [findObj_objRemove_other w hx]; exact h

theorem findObj_objAdd_self (w : World) (n : JSStr) (h : findObj w n = none) :
    findObj (objAdd w n) n = some ⟨n, []⟩ := by
  rw [objAdd, if_neg (by rw [h]; simp)]
  rw [findObj] at h ⊢
  rw [List.find?_append, h, Option.none_or, List.find?_cons]
  rw [beq_name_true rfl]

theorem findObj_objAdd_isSome (w : World) (n : JSStr) :
    (findObj (objAdd w n) n).isSome = true := by
  cases hw : findObj w n with
  | some o => rw [objAdd, if_pos (by rw [hw]; rfl), hw]; rfl
  | none => rw [findObj_objAdd_self w n hw]; rfl

theorem findObj_objAdd_other {x n : JSStr} (w : World) (hx : x ≠ n) :
    findObj (objAdd w n) x = findObj w x := by
  rw [objAdd]
  by_cases h : (findObj w n).isSome
  · rw [if_pos h]
  · rw [if_neg h, findObj, findObj]
    rw [List.find?_append]
    cases hw : (w.objs.find? (fun o => o.name == x)) with
    | some o => rfl
    | none =>
      rw [Option.none_or, List.find?_cons]
      rw [beq_name_false (Ne.symm hx)]
      rfl

theorem find?_name_cons (n : JSStr) (o : Objv) (l : List Objv) :
    (o :: l).find? (fun a => a.name == n) =
      if o.name = n then some o else l.find? (fun a => a.name == n) := by
  by_cases h : o.name = n
  · rw [if_pos h, List.find?_cons, beq_name_true h]
  · rw [if_neg h, List.find?_cons, beq_name_false h]

theorem find?_map_update (n : JSStr) (f : List (JSStr × Int) → List (JSStr × Int)) :
    ∀ (l : List Objv),
      (l.map (fun o => if o.name == n then Objv.mk o.name (f o.entries) else o)).find?
          (fun o => o.name == n) =
        (l.find? (fun o => o.name == n)).map (fun o => Objv.mk o.name (f o.entries))
  | [] => rfl
  | o :: os => by
    rw [List.map_cons]
    by_cases h : o.name = n
    · rw [if_pos (show (o.name == n) = true from beq_name_true h)]
      rw [find?_name_cons, if_pos (show (Objv.mk o.name (f o.entries)).name = n from h)]
      rw [find?_name_cons, if_pos h]
      rfl
    · rw [if_neg (by simp [h])]
      rw [find?_name_cons, if_neg (show ¬(Objv.mk o.name (f o.entries)).name = n from h)]
      rw [find?_name_cons, if_neg h]
      exact find?_map_update n f os

theorem findObj_objsUpdate_self (w : World) (n : JSStr)
    (f : List (JSStr × Int) → List (JSStr × Int)) :
    findObj (objsUpdate w n f) n =
      (findObj w n).map (fun o => Objv.mk o.name (f o.entries)) :=
  find?_map_update n f w.objs

theorem find?_map_update_other {n x : JSStr} (hx : x ≠ n)
    (f : List (JSStr × Int) → List (JSStr × Int)) : ∀ (l : List Objv),
      (l.map (fun o => if o.name == n then Objv.mk o.name (f o.entries) else o)).find?
          (fun o => o.name == x) =
        l.find? (fun o => o.name == x)
  | [] => rfl
  | o :: os => by
    rw [List.map_cons]
    by_cases h : o.name = n
    · have hox : o.name ≠ x := fun he => hx (he.symm.trans h)
      rw [if_pos (show (o.name == n) = true from beq_name_true h)]
      rw [find?_name_cons, if_neg (show ¬(Objv.mk o.name (f o.entries)).name = x from hox)]
      rw [find?_name_cons, if_neg hox]
      exact find?_map_update_other hx f os
    · rw [if_neg (by simp [h])]
      by_cases h2 : o.name = x
      · rw [find?_name_cons, if_pos (show (o : Objv).name = x from h2)]
        rw [find?_name_cons, if_pos h2]
      · rw [find?_name_cons, if_neg (show ¬(o : Objv).name = x from h2)]
        rw [find?_name_cons, if_neg h2]
        exact find?_map_update_other hx f os

theorem findObj_objsUpdate_other {x n : JSStr} (w : World) (hx : x ≠ n)
    (f : List (JSStr × Int) → List (JSStr × Int)) :
    findObj (objsUpdate w n f) x = findObj w x :=
  find?_map_update_other hx f w.objs

theorem find?_en_cons (en : JSStr) (e : JSStr × Int) (l : List (JSStr × Int)) :
    (e :: l).find? (fun a => a.1 == en) =
      if e.1 = en then some e else l.find? (fun a => a.1 == en) := by
  by_cases h : e.1 = en
  · rw [if_pos h, List.find?_cons, beq_name_true h]
  · rw [if_neg h, List.find?_cons, beq_name_false h]

theorem entriesSet_find (en : JSStr) (v : Int) : ∀ (es : List (JSStr × Int)),
    (entriesSet es en v).find? (fun e => e.1 == en) = some (en, v)
  | [] => by
    rw [entriesSet, if_neg (by simp), List.nil_append]
    rw [find?_en_cons, if_pos rfl]
  | e :: es => by
    rw [entriesSet]
    by_cases h : e.1 = en
    · rw [if_pos (by rw [List.any_cons, beq_name_true h]; rfl)]
      rw [List.map_cons, if_pos (show (e.1 == en) = true from beq_name_true h)]
      rw [find?_en_cons, if_pos rfl]
    · cases han : es.any (fun a => a.1 == en) with
      | true =>
        rw [if_pos (by rw [List.any_cons, beq_name_false h, han]; rfl)]
        rw [List.map_cons, if_neg (by rw [beq_name_false h]; simp)]
        rw [find?_en_cons, if_neg h]
        have hrec := entriesSet_find en v es
        rw [entriesSet, if_pos han] at hrec
        exact hrec
      | false =>
        rw [if_neg (by rw [List.any_cons, beq_name_false h, han]; simp)]
        rw [List.cons_append, find?_en_cons, if_neg h]
        have hrec := entriesSet_find en v es
        rw [entriesSet, if_neg (by rw [han]; simp)] at hrec
        exact hrec

theorem saveNamesGet_set (w : World) (T : JSStr) (v : Int) (o : Objv)
    (hT : findObj w T = some o) :
    saveNamesGet (objsUpdate w T (fun es => entriesSet es (s2u "DB_SAVE") v)) T = v := by
  rw [saveNamesGet, findEntry, findObj_objsUpdate_self, hT]
  simp [entriesSet_find]

theorem saveNamesGet_congr {w w' : World} {T : JSStr}
    (h : findObj w' T = findObj w T) : saveNamesGet w' T = saveNamesGet w T := by
  rw [saveNamesGet, saveNamesGet, findEntry, findEntry, h]

theorem entriesAdd_nil (en : JSStr) (v : Int) : entriesAdd [] en v = [(en, v)] := rfl

theorem buildWorld_findT (w : World) (T : JSStr) (h : findObj w T = none) :
    findObj (buildWorld w T) T = some ⟨T, [(s2u "DB_SAVE", 0)]⟩ := by
  rw [buildWorld, playersAdd]
  rw [if_pos (by rw [findObj_objAdd_self w T h]; rfl)]
  rw [findObj_objsUpdate_self, findObj_objAdd_self w T h]
  rfl

theorem saveNamesGet_buildWorld (w : World) (T : JSStr) (h : findObj w T = none) :
    saveNamesGet (buildWorld w T) T = 0 := by
  rw [saveNamesGet, findEntry, buildWorld_findT w T h]
  rfl

theorem hasChunkTable_buildWorld (w : World) (T : JSStr) (i : Nat) :
    hasChunkTable (buildWorld w T) T i = hasChunkTable w T i := by
  rw [hasChunkTable, hasChunkTable, buildWorld, playersAdd]
  by_cases h : (findObj (objAdd w T) T).isSome
  · rw [if_pos h]
    rw [findObj_objsUpdate_other _ (dbName_ne_T T i)]
    rw [findObj_objAdd_other _ (dbName_ne_T T i)]
  · rw [if_neg h]
    rw [findObj_objAdd_other _ (dbName_ne_T T i)]

theorem foldRemove_none (T : JSStr) : ∀ (L : List Nat) (w : World) (x : JSStr),
    findObj w x = none →
    findObj (L.foldl (fun wa i => objRemove wa (dbName T i)) w) x = none
  | [], _, _, h => h
  | i :: is, w, x, h => by
    rw [List.foldl_cons]
    exact foldRemove_none T is _ x (findObj_objRemove_none w _ h)

theorem foldRemove_mem (T : JSStr) : ∀ (L : List Nat) (w : World) (i : Nat), i ∈ L →
    findObj (L.foldl (fun wa k => objRemove wa (dbName T k)) w) (dbName T i) = none
  | [], _, i, h => absurd h (List.not_mem_nil i)
  | k :: ks, w, i, h => by
    rw [List.foldl_cons]
    by_cases hik : i ∈ ks
    · exact foldRemove_mem T ks _ i hik
    · have hk : i = k := by
        rcases List.mem_cons.mp h with h1 | h2
        · exact h1
        · exact absurd h2 hik
      subst hk
      exact foldRemove_none T ks _ _ (findObj_objRemove_self w _)

theorem foldRemove_T (T : JSStr) : ∀ (L : List Nat) (w : World),
    findObj (L.foldl (fun wa k => objRemove wa (dbName T k)) w) T = findObj w T
  | [], _ => rfl
  | k :: ks, w => by
    rw [List.foldl_cons, foldRemove_T T ks,
      findObj_objRemove_other _ (Ne.symm (dbName_ne_T T k))]

theorem wipeWorld_findT (w : World) (T : JSStr) :
    findObj (wipeWorld w T) T = some ⟨T, [(s2u "DB_SAVE", 0)]⟩ := by
  rw [wipeWorld]
  exact buildWorld_findT _ T (findObj_objRemove_self _ T)

theorem wipeWorld_saveNames (w : World) (T : JSStr) :
    saveNamesGet (wipeWorld w T) T = 0 := by
  rw [saveNamesGet, findEntry, wipeWorld_findT]
  rfl

theorem wipeWorld_tables (w : World) (T : JSStr) (hinv : chunkInv w T) (i : Nat) :
    hasChunkTable (wipeWorld w T) T i = false := by
  rw [wipeWorld, hasChunkTable_buildWorld]
  rw [hasChunkTable, findObj_objRemove_other _ (dbName_ne_T T i)]
  by_cases hc : hasChunkTable w T i = true
  · have hmem : i ∈ countIdx (saveNamesGet w T) := by
      have hle := hinv i hc
      rw [countIdx, if_neg (by omega)]
      refine List.mem_range.mpr ?_
      omega
    rw [foldRemove_mem T _ w i hmem]
    rfl
  · have hc' : findObj w (dbName T i) = none := by
      rw [hasChunkTable] at hc
      cases hfo : findObj w (dbName T i) with
      | none => rfl
      | some o => rw [hfo] at hc; exact absurd rfl hc
    rw [foldRemove_none T _ w _ hc']
    rfl

/-- Entries matching the chunk pattern for index `j` can live only in the
chunk table `dbName T j` itself (the key fact behind corruption
degradation). -/
def onlyIn (T : JSStr) (j : Nat) (w : World) : Prop :=
  ∀ o ∈ w.objs, o.name ≠ dbName T j → ∀ e ∈ o.entries, entryPayload (dbName T j) e.1 = none

theorem entriesSet_names (es : List (JSStr × Int)) (en : JSStr) (v : Int) :
    ∀ e ∈ entriesSet es en v, e.1 = en ∨ ∃ e0 ∈ es, e.1 = e0.1 := by
  intro e he
  rw [entriesSet] at he
  by_cases h : (es.any fun a => a.1 == en) = true
  · rw [if_pos h] at he
    obtain ⟨e0, he0, heq⟩ := List.mem_map.mp he
    by_cases h2 : e0.1 = en
    · rw [if_pos (show (e0.1 == en) = true from beq_name_true h2)] at heq
      exact Or.inl (by rw [← heq])
    · rw [if_neg (by rw [beq_name_false h2]; simp)] at heq
      exact Or.inr ⟨e0, he0, by rw [← heq]⟩
  · rw [if_neg h] at he
    rcases List.mem_append.mp he with h1 | h2
    · exact Or.inr ⟨e, h1, rfl⟩
    · exact Or.inl (by rw [List.mem_singleton.mp h2])

theorem entriesAdd_names (es : List (JSStr × Int)) (en : JSStr) (v : Int) :
    ∀ e ∈ entriesAdd es en v, e.1 = en ∨ ∃ e0 ∈ es, e.1 = e0.1 := by
  intro e he
  rw [entriesAdd] at he
  by_cases h : (es.any fun a => a.1 == en) = true
  · rw [if_pos h] at he
    obtain ⟨e0, he0, heq⟩ := List.mem_map.mp he
    by_cases h2 : e0.1 = en
    · rw [if_pos (show (e0.1 == en) = true from beq_name_true h2)] at heq
      exact Or.inr ⟨e0, he0, by rw [← heq]⟩
    · rw [if_neg (by rw [beq_name_false h2]; simp)] at heq
      exact Or.inr ⟨e0, he0, by rw [← heq]⟩
  · rw [if_neg h] at he
    rcases List.mem_append.mp he with h1 | h2
    · exact Or.inr ⟨e, h1, rfl⟩
    · exact Or.inl (by rw [List.mem_singleton.mp h2])

theorem onlyIn_objRemove {T : JSStr} {j : Nat} (w : World) (n : JSStr)
    (h : onlyIn T j w) : onlyIn T j (objRemove w n) := by
  intro o ho hname e he
  rw [objRemove] at ho
  exact h o (List.mem_of_mem_filter ho) hname e he

theorem onlyIn_objAdd {T : JSStr} {j : Nat} (w : World) (n : JSStr)
    (h : onlyIn T j w) : onlyIn T j (objAdd w n) := by
  intro o ho hname e he
  rw [objAdd] at ho
  by_cases hp : (findObj w n).isSome
  · rw [if_pos hp] at ho; exact h o ho hname e he
  · rw [if_neg hp] at ho
    rcases List.mem_append.mp ho with h1 | h2
    · exact h o h1 hname e he
    · rw [List.mem_singleton.mp h2] at he
      exact absurd he (List.not_mem_nil e)

theorem onlyIn_objsUpdate {T : JSStr} {j : Nat} (w : World) (n : JSStr)
    (f : List (JSStr × Int) → List (JSStr × Int))
    (hf : ∀ es, ∀ e ∈ f es, e.1 ∈ es.map Prod.fst ∨ entryPayload (dbName T j) e.1 = none)
    (h : onlyIn T j w) : onlyIn T j (objsUpdate w n f) := by
  intro o ho hname e he
  rw [objsUpdate] at ho
  obtain ⟨o0, ho0, heq⟩ := List.mem_map.mp ho
  by_cases hon : o0.name = n
  · rw [if_pos (show (o0.name == n) = true from beq_name_true hon)] at heq
    rw [← heq] at hname he
    have hname0 : o0.name ≠ dbName T j := hname
    rcases hf o0.entries e he with h1 | h2
    · obtain ⟨e0, he0, heq0⟩ := List.mem_map.mp h1
      rw [← heq0]
      exact h o0 ho0 hname0 e0 he0
    · exact h2
  · rw [if_neg (by rw [beq_name_false hon]; simp)] at heq
    rw [← heq] at hname he
    exact h o0 ho0 hname e he

theorem names_of_entriesSet {T : JSStr} {j : Nat} {en : JSStr} {v : Int}
    (hen : entryPayload (dbName T j) en = none) :
    ∀ es, ∀ e ∈ entriesSet es en v,
      e.1 ∈ es.map Prod.fst ∨ entryPayload (dbName T j) e.1 = none := by
  intro es e he
  rcases entriesSet_names es en v e he with h1 | ⟨e0, he0, h2⟩
  · exact Or.inr (by rw [h1]; exact hen)
  · exact Or.inl (by rw [h2]; exact List.mem_map_of_mem Prod.fst he0)

theorem names_of_entriesAdd {T : JSStr} {j : Nat} {en : JSStr} {v : Int}
    (hen : entryPayload (dbName T j) en = none) :
    ∀ es, ∀ e ∈ entriesAdd es en v,
      e.1 ∈ es.map Prod.fst ∨ entryPayload (dbName T j) e.1 = none := by
  intro es e he
  rcases entriesAdd_names es en v e he with h1 | ⟨e0, he0, h2⟩
  · exact Or.inr (by rw [h1]; exact hen)
  · exact Or.inl (by rw [h2]; exact List.mem_map_of_mem Prod.fst he0)

theorem onlyIn_playersSet {T : JSStr} {j : Nat} (w : World) (n en : JSStr) (v : Int)
    (hsafe : entryPayload (dbName T j) en = none ∨ n = dbName T j)
    (h : onlyIn T j w) : onlyIn T j (playersSet w n en v) := by
  rw [playersSet]
  by_cases hp : (findObj w n).isSome
  · rw [if_pos hp]
    rcases hsafe with hs | hs
    · exact onlyIn_objsUpdate w n _ (names_of_entriesSet hs) h
    · intro o ho hname e he
      rw [objsUpdate] at ho
      obtain ⟨o0, ho0, heq⟩ := List.mem_map.mp ho
      by_cases hon : o0.name = n
      · rw [if_pos (show (o0.name == n) = true from beq_name_true hon)] at heq
        rw [← heq] at hname
        exact absurd (hon.trans hs) hname
      · rw [if_neg (by rw [beq_name_false hon]; simp)] at heq
        rw [← heq] at hname he
        exact h o0 ho0 hname e he
  · rw [if_neg hp]; exact h

theorem onlyIn_playersAdd {T : JSStr} {j : Nat} (w : World) (n en : JSStr) (v : Int)
    (hen : entryPayload (dbName T j) en = none)
    (h : onlyIn T j w) : onlyIn T j (playersAdd w n en v) := by
  rw [playersAdd]
  by_cases hp : (findObj w n).isSome
  · rw [if_pos hp]
    exact onlyIn_objsUpdate w n _ (names_of_entriesAdd hen) h
  · rw [if_neg hp]; exact h

theorem onlyIn_saveNamesSetRaw {T : JSStr} {j : Nat} {w w' : World} {v : Int}
    (hs : saveNamesSetRaw w T v = some w') (h : onlyIn T j w) : onlyIn T j w' := by
  rw [saveNamesSetRaw] at hs
  by_cases hp : (findObj w T).isSome
  · rw [if_pos hp] at hs
    injection hs with hs
    rw [← hs]
    exact onlyIn_objsUpdate w T _ (names_of_entriesSet (entryPayload_DBSAVE _)) h
  · rw [if_neg hp] at hs
    exact absurd hs (by simp)

theorem onlyIn_foldRemove {T : JSStr} {j : Nat} : ∀ (L : List Nat) (w : World),
    onlyIn T j w → onlyIn T j (L.foldl (fun wa k => objRemove wa (dbName T k)) w)
  | [], _, h => h
  | k :: ks, w, h => by
    rw [List.foldl_cons]
    exact onlyIn_foldRemove ks _ (onlyIn_objRemove _ _ h)

theorem onlyIn_buildWorld {T : JSStr} {j : Nat} (w : World)
    (h : onlyIn T j w) : onlyIn T j (buildWorld w T) :=
  onlyIn_playersAdd _ _ _ _ (entryPayload_DBSAVE _) (onlyIn_objAdd _ _ h)

theorem onlyIn_wipeWorld {T : JSStr} {j : Nat} (w : World)
    (h : onlyIn T j w) : onlyIn T j (wipeWorld w T) := by
  rw [wipeWorld]
  exact onlyIn_buildWorld _ (onlyIn_objRemove _ _ (onlyIn_foldRemove _ _ h))

theorem findSome?_entries_none (pat : JSStr) : ∀ (es : List (JSStr × Int)),
    (∀ e ∈ es, entryPayload pat e.1 = none) →
    es.findSome? (fun e => entryPayload pat e.1) = none
  | [], _ => rfl
  | e :: es, h => by
    rw [List.findSome?_cons, h e (List.mem_cons_self e es)]
    exact findSome?_entries_none pat es (fun x hx => h x (List.mem_cons_of_mem e hx))

theorem findPayload_none (w : World) (pat : JSStr)
    (h : ∀ o ∈ w.objs, ∀ e ∈ o.entries, entryPayload pat e.1 = none) :
    findPayload w pat = none := by
  rw [findPayload]
  have aux : ∀ (l : List Objv), (∀ o ∈ l, ∀ e ∈ o.entries, entryPayload pat e.1 = none) →
      l.findSome? (fun o => o.entries.findSome? (fun e => entryPayload pat e.1)) = none := by
    intro l
    induction l with
    | nil => intro _; rfl
    | cons o os ih =>
      intro hl
      rw [List.findSome?_cons,
        findSome?_entries_none pat o.entries (hl o (List.mem_cons_self o os))]
      exact ih (fun x hx => hl x (List.mem_cons_of_mem o hx))
  exact aux w.objs h

theorem objRemove_names (w : World) (n : JSStr) :
    ∀ o ∈ (objRemove w n).objs, o.name ≠ n := by
  intro o ho
  rw [objRemove] at ho
  have := List.of_mem_filter ho
  simpa using this

theorem findPayload_objRemove_pattern {T : JSStr} {j : Nat} (w : World)
    (h : onlyIn T j w) :
    findPayload (objRemove w (dbName T j)) (dbName T j) = none := by
  apply findPayload_none
  intro o ho e he
  exact onlyIn_objRemove w (dbName T j) h o ho (objRemove_names w (dbName T j) o ho) e he

theorem fetchGo_none {T : JSStr} {j : Nat} (w : World)
    (hnone : findPayload w (dbName T j) = none) : ∀ (idxs : List Nat), j ∈ idxs →
    fetchGo w T idxs = none := by
  intro idxs
  induction idxs with
  | nil => intro h; exact absurd h (List.not_mem_nil j)
  | cons i is ih =>
    intro hmem
    rw [fetchGo]
    by_cases hij : i = j
    · rw [hij, hnone]
    · cases hp : findPayload w (dbName T i) with
      | none => rfl
      | some p =>
        rw [ih (by rcases List.mem_cons.mp hmem with h1 | h2
                   · exact absurd h1.symm hij
                   · exact h2)]
        rfl

theorem dbName_ne_dbName {T : JSStr} {i m : Nat} (h : i ≠ m) :
    dbName T i ≠ dbName T m :=
  fun he => h (dbName_inj he)

theorem saveStep_spec (T : JSStr) (m : Nat) (c : JSStr) (w : World)
    (hT : (findObj w T).isSome = true)
    (htab : ∀ i : Nat, hasChunkTable w T i = true ↔ i < m) :
    ∃ w' : World, saveStep T (some w) (m, c) = some w' ∧
      (findObj w' T).isSome = true ∧
      saveNamesGet w' T = (m : Int) ∧
      (∀ i : Nat, hasChunkTable w' T i = true ↔ i < m + 1) ∧
      (∀ j : Nat, onlyIn T j w → onlyIn T j w') := by
  obtain ⟨o, ho⟩ := Option.isSome_iff_exists.mp hT
  have hsraw : saveNamesSetRaw w T ((m : Nat) : Int) =
      some (objsUpdate w T (fun es => entriesSet es (s2u "DB_SAVE") (m : Int))) := by
    rw [saveNamesSetRaw, if_pos hT]
  have hTA : findObj (objsUpdate w T (fun es => entriesSet es (s2u "DB_SAVE") (m : Int))) T
      = some ⟨o.name, entriesSet o.entries (s2u "DB_SAVE") (m : Int)⟩ := by
    rw [findObj_objsUpdate_self, ho]
    rfl
  set wA := objsUpdate w T (fun es => entriesSet es (s2u "DB_SAVE") (m : Int)) with hwA
  have hsA : saveNamesGet wA T = (m : Int) := saveNamesGet_set w T _ o ho
  have htabA : ∀ i : Nat, hasChunkTable wA T i = hasChunkTable w T i := by
    intro i
    rw [hasChunkTable, hasChunkTable, hwA, findObj_objsUpdate_other _ (dbName_ne_T T i)]
  have hnm : findObj wA (dbName T m) = none := by
    have hfw : hasChunkTable w T m = false := by
      cases hval : hasChunkTable w T m with
      | false => rfl
      | true => exact absurd ((htab m).mp hval) (by omega)
    rw [hwA, findObj_objsUpdate_other _ (dbName_ne_T T m)]
    rw [hasChunkTable] at hfw
    cases hfo : findObj w (dbName T m) with
    | none => rfl
    | some x => rw [hfo] at hfw; exact absurd hfw (by simp)
  set wB := objAdd wA (dbName T m) with hwB
  have hBnm : findObj wB (dbName T m) = some ⟨dbName T m, []⟩ :=
    findObj_objAdd_self wA _ hnm
  have hTB : findObj wB T = findObj wA T := by
    rw [hwB, findObj_objAdd_other _ (Ne.symm (dbName_ne_T T m))]
  set en := entryName (dbName T m) (textToBinary c) with hen
  set wC := playersSet wB (dbName T m) en 0 with hwC
  have hwCeq : wC = objsUpdate wB (dbName T m) (fun es => entriesSet es en 0) := by
    rw [hwC, playersSet, if_pos (by rw [hBnm]; rfl)]
  have hTC : findObj wC T = findObj wB T := by
    rw [hwCeq, findObj_objsUpdate_other _ (Ne.symm (dbName_ne_T T m))]
  refine ⟨wC, ?_, ?_, ?_, ?_, ?_⟩
  · rw [saveStep]
    rw [show ((m, c).1 : Nat) = m from rfl, show (m, c).2 = c from rfl]
    rw [hsraw]
  · rw [hTC, hTB, hTA]
    rfl
  · rw [saveNamesGet_congr (hTC.trans hTB), hsA]
  · intro i
    by_cases him : i = m
    · rw [him]
      constructor
      · intro _; omega
      · intro _
        rw [hasChunkTable, hwCeq, findObj_objsUpdate_self, hBnm]
        rfl
    · have hne : dbName T i ≠ dbName T m := dbName_ne_dbName him
      rw [hasChunkTable, hwCeq, findObj_objsUpdate_other _ hne, hwB,
        findObj_objAdd_other _ hne, ← hasChunkTable, htabA, htab]
      omega
  · intro j hj
    have hjA : onlyIn T j wA := by
      rw [hwA]
      exact onlyIn_objsUpdate w T _ (names_of_entriesSet (entryPayload_DBSAVE _)) hj
    have hjB : onlyIn T j wB := onlyIn_objAdd wA _ hjA
    refine onlyIn_playersSet wB _ en 0 ?_ hjB
    by_cases hjm : j = m
    · exact Or.inr (by rw [hjm])
    · exact Or.inl (entryPayload_entryName (textToBinary c) (fun he => hjm he.symm))

theorem saveFold (T : JSStr) : ∀ (cs : List JSStr) (m : Nat) (w : World), cs ≠ [] →
    (findObj w T).isSome = true →
    (∀ i : Nat, hasChunkTable w T i = true ↔ i < m) →
    ∃ w2 : World, List.foldl (saveStep T) (some w) (List.enumFrom m cs) = some w2 ∧
      saveNamesGet w2 T = ((m + cs.length - 1 : Nat) : Int) ∧
      (∀ i : Nat, hasChunkTable w2 T i = true ↔ i < m + cs.length) ∧
      (∀ j : Nat, onlyIn T j w → onlyIn T j w2)
  | [], _, _, hne, _, _ => absurd rfl hne
  | c :: cs, m, w, _, hT, htab => by
    obtain ⟨w1, hstep, hT1, hs1, htab1, honly1⟩ := saveStep_spec T m c w hT htab
    rw [List.enumFrom_cons, List.foldl_cons, hstep]
    cases cs with
    | nil =>
      refine ⟨w1, rfl, ?_, ?_, honly1⟩
      · rw [hs1]
        congr 1
      · intro i
        rw [htab1 i]
        constructor <;> (intro; simp at *; omega)
    | cons c2 cs2 =>
      obtain ⟨w2, hfold, hs2, htab2, honly2⟩ :=
        saveFold T (c2 :: cs2) (m + 1) w1 (by simp) hT1 htab1
      refine ⟨w2, hfold, ?_, ?_, fun j hj => honly2 j (honly1 j hj)⟩
      · rw [hs2]
        congr 1
        simp [List.length_cons]
        omega
      · intro i
        rw [htab2 i]
        simp [List.length_cons]
        omega

theorem chunkString_ne_nil {s : JSStr} {L : Nat} {ms : List JSStr}
    (h : chunkString s L = some ms) : ms ≠ [] := by
  rw [chunkString] at h
  by_cases hL : L = 0
  · rw [if_pos hL] at h
    exact absurd h (by simp)
  · rw [if_neg hL] at h
    by_cases hms : chunkMatchesFuel L s.length s = []
    · rw [if_pos hms] at h
      exact absurd h (by simp)
    · rw [if_neg hms] at h
      injection h with h
      rw [← h]
      exact hms

/-- C9.  After every successful `save` of a document that split into the
chunk list `cs`, the backing scoreboard records `DB_SAVE = cs.length - 1` on
the coordination table, and a chunk table `DB_T_i` exists exactly for the
contiguous index range `0 ≤ i < cs.length`.  The prior-state hypothesis
`chunkInv` (every existing chunk table is within the recorded count, which
every earlier successful save establishes) is what `wipe` needs to clear the
old chunk tables; `set`, `delete`, `clear` all route through this same
`save` path. -/
theorem C9_chunk_count_invariant (w : World) (T : JSStr) (d : Json)
    (cs : List JSStr) (hinv : chunkInv w T)
    (hcs : chunkString (strVal d) MAX_DATABASE_STRING_SIZE = some cs) :
    ∃ w2 : World, saveWorldDoc w T d = some w2 ∧
      saveNamesGet w2 T = ((cs.length - 1 : Nat) : Int) ∧
      ∀ i : Nat, hasChunkTable w2 T i = true ↔ i < cs.length := by
  have hT : (findObj (wipeWorld w T) T).isSome = true := by
    rw [wipeWorld_findT]
    rfl
  have htab : ∀ i : Nat, hasChunkTable (wipeWorld w T) T i = true ↔ i < 0 := by
    intro i
    rw [wipeWorld_tables w T hinv i]
    constructor
    · intro h; exact absurd h (by simp)
    · omega
  obtain ⟨w2, hfold, hs, htab2, _⟩ :=
    saveFold T cs 0 (wipeWorld w T) (chunkString_ne_nil hcs) hT htab
  refine ⟨w2, ?_, ?_, ?_⟩
  · simp only [saveWorldDoc, hcs]
    exact hfold
  · rw [hs]
    congr 1
    omega
  · intro i
    rw [htab2 i]
    omega

theorem C9_chunk_count_invariant_witness :
    ∃ w2 : World, saveWorldDoc ⟨[]⟩ (s2u "t") (Json.obj .nil) = some w2 ∧
      saveNamesGet w2 (s2u "t") = ((([s2u "{}"] : List JSStr).length - 1 : Nat) : Int) ∧
      ∀ i : Nat, hasChunkTable w2 (s2u "t") i = true ↔
        i < ([s2u "{}"] : List JSStr).length :=
  C9_chunk_count_invariant ⟨[]⟩ (s2u "t") (Json.obj .nil) [s2u "{}"]
    (fun i h => absurd h Bool.false_ne_true) (by decide)

/-- C7.  Corruption degradation: starting from a world with no stray entries
matching the chunk pattern and whose chunk tables are within the recorded
count, save any document; if one of the per-chunk tables written by that
save is then externally dropped, the next read finds no match for that
chunk's pattern, `fetch` resets the cache to the encoded `{}` fallback, and
the document read returns the empty document rather than throwing. -/
theorem C7_drop_table_degrades (w : World) (T : JSStr) (d : Json) (j : Nat)
    (cs : List JSStr) (hclean : cleanFor T w) (hinv : chunkInv w T)
    (hcs : chunkString (strVal d) MAX_DATABASE_STRING_SIZE = some cs)
    (hj : j < cs.length) :
    ∃ w2 : World, saveWorldDoc w T d = some w2 ∧
      dataGet (fetchMemory (objRemove w2 (dbName T j)) T) = Json.obj .nil := by
  have hT : (findObj (wipeWorld w T) T).isSome = true := by
    rw [wipeWorld_findT]
    rfl
  have htab : ∀ i : Nat, hasChunkTable (wipeWorld w T) T i = true ↔ i < 0 := by
    intro i
    rw [wipeWorld_tables w T hinv i]
    constructor
    · intro h; exact absurd h (by simp)
    · omega
  obtain ⟨w2, hfold, hs, htab2, honly⟩ :=
    saveFold T cs 0 (wipeWorld w T) (chunkString_ne_nil hcs) hT htab
  have honlyW : onlyIn T j w := fun o ho _ e he => hclean o ho e he j
  have honly2 : onlyIn T j w2 := honly j (onlyIn_wipeWorld w honlyW)
  have hpay : findPayload (objRemove w2 (dbName T j)) (dbName T j) = none :=
    findPayload_objRemove_pattern w2 honly2
  have hsn3 : saveNamesGet (objRemove w2 (dbName T j)) T = saveNamesGet w2 T :=
    saveNamesGet_congr (findObj_objRemove_other w2 (Ne.symm (dbName_ne_T T j)))
  have hmem : j ∈ countIdx (saveNamesGet (objRemove w2 (dbName T j)) T) := by
    rw [hsn3, hs, countIdx, if_neg (by omega)]
    refine List.mem_range.mpr ?_
    omega
  have hgo : fetchGo (objRemove w2 (dbName T j)) T
      (countIdx (saveNamesGet (objRemove w2 (dbName T j)) T)) = none :=
    fetchGo_none _ hpay _ hmem
  refine ⟨w2, ?_, ?_⟩
  · simp only [saveWorldDoc, hcs]
    exact hfold
  · rw [fetchMemory, hgo]
    decide

theorem C7_drop_table_degrades_witness :
    ∃ w2 : World, saveWorldDoc ⟨[]⟩ (s2u "t") (Json.obj .nil) = some w2 ∧
      dataGet (fetchMemory (objRemove w2 (dbName (s2u "t") 0)) (s2u "t")) =
        Json.obj .nil :=
  C7_drop_table_degrades ⟨[]⟩ (s2u "t") (Json.obj .nil) 0 [s2u "{}"]
    (fun o ho => absurd ho (List.not_mem_nil o))
    (fun i h => absurd h Bool.false_ne_true)
    (by decide) (by decide)
